import Mathlib

/-!
# Verification of the Image↔Text Manifest codecs

This development embeds the data model and operations of the image↔text
manifest service (FastAPI surface in `app.py`, codec core described by the
design document).  The codec core module (`image_to_text_full_v3`) is not
part of the repository snapshot, so the codec functions are modelled from
the design document; the HTTP-surface behaviour (temp-file lifecycle,
API-key check) is embedded directly from `app.py`.

Text is modelled as `List Char`, bytes as `Nat` values `< 256`, and machine
integers as `Nat` with explicit `% 2 ^ 32` where the design calls for `u32`.
-/

namespace Img2Txt

/-! ## Data model -/

/-- Channel layouts of a `PixelBuffer` (spec §3). -/
inductive Channels where
  | RGB
  | RGBA
  | Gray
deriving DecidableEq, Repr

/-- Number of bytes per pixel for each channel layout. -/
def Channels.count : Channels → Nat
  | .RGB => 3
  | .RGBA => 4
  | .Gray => 1

/-- Uniform in-memory representation of decoded image data (spec §3). -/
structure PixelBuffer where
  width : Nat
  height : Nat
  channels : Channels
  data : List Nat
deriving DecidableEq, Repr

/-- A valid pixel buffer: the byte sequence has exactly
`width*height*channels` entries, every entry is a byte, the dimensions are
nonzero (a zero dimension is rejected by decode with `InvalidDimensions`,
spec §4.2) and fit in a `u32` (spec §3 declares `width, height : u32`). -/
def PixelBuffer.valid (p : PixelBuffer) : Prop :=
  p.data.length = p.width * p.height * p.channels.count ∧
  (∀ b ∈ p.data, b < 256) ∧
  0 < p.width ∧ 0 < p.height ∧ p.width < 2 ^ 32 ∧ p.height < 2 ^ 32

instance (p : PixelBuffer) : Decidable p.valid := by
  unfold PixelBuffer.valid; infer_instance

/-- Error taxonomy of the codec core (spec §7). -/
inductive CodecError where
  | MalformedManifest
  | ChecksumMismatch
  | TruncatedPayload
  | InvalidDimensions
  | InvalidPaletteSize
  | IndexOutOfRange
  | UnparsableDescription
  | InvalidAnchor
deriving DecidableEq, Repr

instance exceptDecEq {ε α : Type _} [DecidableEq ε] [DecidableEq α] :
    DecidableEq (Except ε α) := fun x y =>
  match x, y with
  | .error a, .error b =>
      if h : a = b then .isTrue (h ▸ rfl) else .isFalse fun hc => h (Except.error.inj hc)
  | .ok a, .ok b =>
      if h : a = b then .isTrue (h ▸ rfl) else .isFalse fun hc => h (Except.ok.inj hc)
  | .error _, .ok _ => .isFalse fun hc => Except.noConfusion hc
  | .ok _, .error _ => .isFalse fun hc => Except.noConfusion hc

/-! ## Text-safe byte transform (spec §4.2, §9)

The reversible text transform is an alphabet-parameterized radix encoding:
every byte maps to exactly two characters of a 16-character alphabet and
vice versa. -/

/-- The 16-character alphabet of the radix encoding (`0`–`9`, `a`–`f`,
built from their code points). -/
def hexAlphabet : List Char :=
  (List.range 16).map fun n => Char.ofNat (if n < 10 then 48 + n else 87 + n)

/-- Digit of the radix-16 alphabet for a value `< 16`. -/
def hexDigitChar (n : Nat) : Char := hexAlphabet.getD n '0'

/-- Inverse of `hexDigitChar` on the alphabet, by code-point arithmetic. -/
def hexVal (c : Char) : Option Nat :=
  if 48 ≤ c.toNat ∧ c.toNat ≤ 57 then some (c.toNat - 48)
  else if 97 ≤ c.toNat ∧ c.toNat ≤ 102 then some (c.toNat - 87)
  else none

/-- A byte as two alphabet characters (most significant first). -/
def hexByte (b : Nat) : List Char := [hexDigitChar (b / 16), hexDigitChar (b % 16)]

/-- The text-safe transform: every byte becomes exactly two characters. -/
def bytesToHex (l : List Nat) : List Char := (l.map hexByte).flatten

/-- Inverse transform: consume the characters two at a time. -/
def hexPairsToBytes : List Char → Option (List Nat)
  | [] => some []
  | c1 :: c2 :: rest => do
      let h ← hexVal c1
      let l ← hexVal c2
      let bs ← hexPairsToBytes rest
      some ((16 * h + l) :: bs)
  | [_] => none

theorem hexVal_hexDigitChar {n : Nat} (h : n < 16) : hexVal (hexDigitChar n) = some n := by
  interval_cases n <;> decide

theorem hexDigitChar_mem (n : Nat) : hexDigitChar n ∈ hexAlphabet ∨ hexDigitChar n = '0' := by
  unfold hexDigitChar
  rcases Nat.lt_or_ge n hexAlphabet.length with h | h
  · exact Or.inl (by rw [List.getD_eq_getElem _ _ h]; exact List.getElem_mem h)
  · exact Or.inr (by rw [List.getD_eq_default _ _ h])

theorem hexDigitChar_ne_semi (n : Nat) : hexDigitChar n ≠ ';' := by
  rcases hexDigitChar_mem n with h | h
  · intro he; rw [he] at h; revert h; decide
  · rw [h]; decide

theorem mem_bytesToHex_ne_semi (l : List Nat) : ∀ c ∈ bytesToHex l, c ≠ ';' := by
  intro c hc
  simp only [bytesToHex, List.mem_flatten, List.mem_map] at hc
  obtain ⟨cs, ⟨b, _, rfl⟩, hmem⟩ := hc
  simp only [hexByte, List.mem_cons, List.not_mem_nil, or_false] at hmem
  rcases hmem with rfl | rfl
  · exact hexDigitChar_ne_semi _
  · exact hexDigitChar_ne_semi _

theorem hexPairsToBytes_bytesToHex {l : List Nat} (h : ∀ b ∈ l, b < 256) :
    hexPairsToBytes (bytesToHex l) = some l := by
  induction l with
  | nil => rfl
  | cons b bs ih =>
      have hb : b < 256 := h b (by simp)
      have hbs : ∀ x ∈ bs, x < 256 := fun x hx => h x (by simp [hx])
      have h1 : b / 16 < 16 := by omega
      have h2 : b % 16 < 16 := by omega
      have hih := ih hbs
      simp only [bytesToHex, List.map_cons, List.flatten_cons, hexByte, List.cons_append,
        List.nil_append] at hih ⊢
      simp only [hexPairsToBytes, hexVal_hexDigitChar h1, hexVal_hexDigitChar h2,
        Option.bind_eq_bind, Option.some_bind, hih]
      have hb16 : 16 * (b / 16) + b % 16 = b := by omega
      rw [hb16]

/-! ## Fixed-width big-endian byte serialization of naturals -/

/-- `k`-byte big-endian representation of `n` (low bytes of `n` only). -/
def natToBytesBE : Nat → Nat → List Nat
  | 0, _ => []
  | k + 1, n => natToBytesBE k (n / 256) ++ [n % 256]

/-- Big-endian byte list back to a natural number. -/
def bytesBEToNat (l : List Nat) : Nat := l.foldl (fun acc b => acc * 256 + b) 0

theorem natToBytesBE_length (k n : Nat) : (natToBytesBE k n).length = k := by
  induction k generalizing n with
  | zero => rfl
  | succ k ih => simp [natToBytesBE, ih]

theorem natToBytesBE_mem_lt (k n : Nat) : ∀ b ∈ natToBytesBE k n, b < 256 := by
  induction k generalizing n with
  | zero => simp [natToBytesBE]
  | succ k ih =>
      intro b hb
      simp only [natToBytesBE, List.mem_append, List.mem_cons, List.not_mem_nil, or_false] at hb
      rcases hb with hb | rfl
      · exact ih _ b hb
      · omega

theorem bytesBEToNat_append_single (l : List Nat) (b : Nat) :
    bytesBEToNat (l ++ [b]) = bytesBEToNat l * 256 + b := by
  simp [bytesBEToNat, List.foldl_append]

theorem bytesBEToNat_natToBytesBE {k n : Nat} (h : n < 256 ^ k) :
    bytesBEToNat (natToBytesBE k n) = n := by
  induction k generalizing n with
  | zero => simp at h; simp [natToBytesBE, bytesBEToNat, h]
  | succ k ih =>
      have hdiv : n / 256 < 256 ^ k := by
        rw [Nat.div_lt_iff_lt_mul (by norm_num : 0 < 256)]
        calc n < 256 ^ (k + 1) := h
        _ = 256 ^ k * 256 := by rw [Nat.pow_succ]
      simp only [natToBytesBE, bytesBEToNat_append_single, ih hdiv]
      omega

/-! ## Reading structured byte streams -/

/-- Read exactly `k` bytes from the front of a byte stream. -/
def readN (k : Nat) (l : List Nat) : Option (List Nat × List Nat) :=
  if k ≤ l.length then some (l.take k, l.drop k) else none

theorem readN_append {l1 : List Nat} (k : Nat) (l2 : List Nat) (h : l1.length = k) :
    readN k (l1 ++ l2) = some (l1, l2) := by
  subst h
  simp [readN, List.take_left, List.drop_left]

/-! ## Chunking a flat byte sequence into fixed-size groups -/

/-- Fuel-driven worker for `chunk` (structural recursion on the fuel, so
that the kernel can evaluate it). -/
def chunkF : Nat → Nat → List α → List (List α)
  | 0, _, _ => []
  | _ + 1, _, [] => []
  | fuel + 1, k, x :: xs => (x :: xs).take k :: chunkF fuel k ((x :: xs).drop k)

/-- Split a list into consecutive groups of `k` elements (`k > 0`). -/
def chunk (k : Nat) (l : List α) : List (List α) := chunkF l.length k l

theorem chunkF_nil (f k : Nat) : chunkF f k ([] : List α) = [] := by
  cases f <;> rfl

theorem chunkF_fuel_eq {k : Nat} (hk : 0 < k) :
    ∀ (f1 f2 : Nat) (l : List α), l.length ≤ f1 → l.length ≤ f2 →
      chunkF f1 k l = chunkF f2 k l := by
  intro f1
  induction f1 with
  | zero =>
      intro f2 l h1 h2
      have : l = [] := List.eq_nil_of_length_eq_zero (by omega)
      subst this
      rw [chunkF_nil, chunkF_nil]
  | succ f1 ih =>
      intro f2 l h1 h2
      match l with
      | [] => rw [chunkF_nil, chunkF_nil]
      | x :: xs =>
          match f2, h2 with
          | f2 + 1, h2 =>
              simp only [chunkF]
              congr 1
              apply ih
              · simp only [List.length_drop, List.length_cons] at h1 ⊢
                omega
              · simp only [List.length_drop, List.length_cons] at h2 ⊢
                omega

theorem chunk_nil (k : Nat) : chunk k ([] : List α) = [] := rfl

theorem chunk_cons_eq {k : Nat} (hk : 0 < k) (x : α) (xs : List α) :
    chunk k (x :: xs) = (x :: xs).take k :: chunk k ((x :: xs).drop k) := by
  show chunkF (x :: xs).length k (x :: xs) = _
  have hx : (x :: xs).length = xs.length + 1 := rfl
  rw [hx]
  simp only [chunkF]
  congr 1
  apply chunkF_fuel_eq hk
  · simp only [List.length_drop, List.length_cons]
    omega
  · exact le_refl _

theorem chunk_append {k : Nat} {l1 : List α} (l2 : List α)
    (hk : 0 < k) (h : l1.length = k) :
    chunk k (l1 ++ l2) = l1 :: chunk k l2 := by
  obtain ⟨k, rfl⟩ : ∃ m, k = m + 1 := ⟨k - 1, by omega⟩
  match l1, h with
  | x :: xs, h =>
      rw [List.cons_append, chunk_cons_eq (Nat.succ_pos k)]
      congr 1
      · rw [← List.cons_append, List.take_append_eq_append_take, List.take_of_length_le (by omega),
          show k + 1 - (x :: xs).length = 0 by omega, List.take_zero, List.append_nil]
      · rw [← List.cons_append, List.drop_append_eq_append_drop,
          List.drop_of_length_le (by omega), show k + 1 - (x :: xs).length = 0 by omega,
          List.drop_zero, List.nil_append]

/-- `chunk` recovers the groups of a flat concatenation of equal-size groups. -/
theorem chunk_join {k : Nat} (hk : 0 < k) :
    ∀ ls : List (List α), (∀ r ∈ ls, r.length = k) → chunk k ls.flatten = ls := by
  intro ls
  induction ls with
  | nil => intro _; simp [chunk_nil]
  | cons r rs ih =>
      intro h
      rw [List.flatten_cons, chunk_append _ hk (h r (by simp))]
      rw [ih fun r hr => h r (by simp [hr])]

/-- Number of groups produced by `chunk` on a list of length `m * k`. -/
theorem chunk_length {k : Nat} (hk : 0 < k) :
    ∀ (m : Nat) (l : List α), l.length = m * k → (chunk k l).length = m := by
  intro m
  induction m with
  | zero =>
      intro l hl
      have : l = [] := List.eq_nil_of_length_eq_zero (by omega)
      subst this; simp [chunk_nil]
  | succ m ih =>
      intro l hl
      obtain ⟨k', rfl⟩ : ∃ m, k = m + 1 := ⟨k - 1, by omega⟩
      rw [Nat.succ_mul] at hl
      match l, hl with
      | x :: xs, hl =>
          have hd : ((x :: xs).drop (k' + 1)).length = m * (k' + 1) := by
            simp only [List.length_drop, List.length_cons] at hl ⊢
            omega
          rw [chunk_cons_eq (Nat.succ_pos k'), List.length_cons, ih _ hd]

/-- Every group produced by `chunk k` on a list of length `m * k` has `k`
elements, and its elements come from the original list. -/
theorem chunk_spec {k : Nat} (hk : 0 < k) :
    ∀ (m : Nat) (l : List α), l.length = m * k →
      ∀ r ∈ chunk k l, r.length = k ∧ ∀ a ∈ r, a ∈ l := by
  intro m
  induction m with
  | zero =>
      intro l hl
      have : l = [] := List.eq_nil_of_length_eq_zero (by omega)
      subst this; simp [chunk_nil]
  | succ m ih =>
      intro l hl r hr
      obtain ⟨k', rfl⟩ : ∃ m, k = m + 1 := ⟨k - 1, by omega⟩
      rw [Nat.succ_mul] at hl
      match l, hl with
      | x :: xs, hl =>
          have hlen : (x :: xs).length = m * (k' + 1) + (k' + 1) := hl
          have hd : ((x :: xs).drop (k' + 1)).length = m * (k' + 1) := by
            simp only [List.length_drop, List.length_cons] at hlen ⊢
            omega
          rw [chunk_cons_eq (Nat.succ_pos k')] at hr
          rcases List.mem_cons.1 hr with rfl | hr
          · constructor
            · simp only [List.length_take, List.length_cons] at hlen ⊢
              omega
            · intro a ha; exact List.mem_of_mem_take ha
          · have hspec := ih ((x :: xs).drop (k' + 1)) hd r hr
            exact ⟨hspec.1, fun a ha => List.mem_of_mem_drop (hspec.2 a ha)⟩

/-! ## Manifest Envelope (spec §4.1)

Modelled from the spec: the codec core's `wrap`/`unwrap` pair is not in the
repository snapshot.  The manifest is plain text: a leading version marker,
the codec kind, the source tag, an 8-character `u32` checksum field and the
payload, separated by `;`.  The payload is the final field and may contain
any characters; the other fields are `;`-free. -/

/-- Codec kinds carried by a manifest envelope (spec §3). -/
inductive CodecKind where
  | LOSSLESS
  | LOSSY_ALGO
  | LOSSY_NLP
deriving DecidableEq, Repr

/-- Leading version marker of every manifest (`format_version` 1). -/
def versionMarker : List Char := ['I', 'M', 'G', 'T', 'X', 'T', '1']

/-- Kind marker of a codec kind. -/
def kindMarker : CodecKind → List Char
  | .LOSSLESS => ['L', 'O', 'S', 'S', 'L', 'E', 'S', 'S']
  | .LOSSY_ALGO => ['L', 'O', 'S', 'S', 'Y', '_', 'A', 'L', 'G', 'O']
  | .LOSSY_NLP => ['L', 'O', 'S', 'S', 'Y', '_', 'N', 'L', 'P']

/-- Recognize a kind marker; unknown markers are rejected. -/
def parseKind (l : List Char) : Option CodecKind :=
  if l = kindMarker .LOSSLESS then some .LOSSLESS
  else if l = kindMarker .LOSSY_ALGO then some .LOSSY_ALGO
  else if l = kindMarker .LOSSY_NLP then some .LOSSY_NLP
  else none

/-- Checksum over the payload text: `u32` sum of the character codes. -/
def checksum (p : List Char) : Nat := (p.map Char.toNat).sum % 2 ^ 32

/-- The checksum field: a `u32` under the text-safe transform. -/
def checksumField (n : Nat) : List Char := bytesToHex (natToBytesBE 4 n)

/-- Strip an expected leading marker; `none` when the marker is absent. -/
def dropPre : List Char → List Char → Option (List Char)
  | [], l => some l
  | _ :: _, [] => none
  | p :: ps, c :: cs => if c = p then dropPre ps cs else none

/-- Split at the first `;` separator. -/
def splitSemi : List Char → Option (List Char × List Char)
  | [] => none
  | c :: cs =>
      if c = ';' then some ([], cs)
      else (splitSemi cs).map fun q => (c :: q.1, q.2)

/-- Assemble a manifest with an explicitly given stored checksum. -/
def wrapCk (ck : Nat) (k : CodecKind) (src payload : List Char) : List Char :=
  versionMarker ++ ';' :: (kindMarker k ++ ';' :: (src ++ ';' :: (checksumField ck ++ ';' :: payload)))

/-- `wrap(codec_kind, source_tag, payload) -> manifest_string` (spec §4.1). -/
def wrap (k : CodecKind) (src payload : List Char) : List Char :=
  wrapCk (checksum payload) k src payload

/-- `unwrap(manifest_string) -> (codec_kind, source_tag, payload)`:
fails with `MalformedManifest` when the leading version/kind markers are
absent or unrecognized, and with `ChecksumMismatch` when the recomputed
checksum over the payload disagrees with the stored one (spec §4.1). -/
def unwrap (m : List Char) : Except CodecError (CodecKind × List Char × List Char) :=
  match dropPre (versionMarker ++ [';']) m with
  | none => .error .MalformedManifest
  | some r1 =>
    match splitSemi r1 with
    | none => .error .MalformedManifest
    | some (kf, r2) =>
      match parseKind kf with
      | none => .error .MalformedManifest
      | some k =>
        match splitSemi r2 with
        | none => .error .MalformedManifest
        | some (src, r3) =>
          match splitSemi r3 with
          | none => .error .MalformedManifest
          | some (ckf, payload) =>
            match hexPairsToBytes ckf with
            | none => .error .MalformedManifest
            | some ckBytes =>
              if ckBytes.length = 4 then
                if bytesBEToNat ckBytes = checksum payload then .ok (k, src, payload)
                else .error .ChecksumMismatch
              else .error .MalformedManifest

theorem parseKind_kindMarker (k : CodecKind) : parseKind (kindMarker k) = some k := by
  cases k <;> rfl

theorem semi_not_mem_kindMarker (k : CodecKind) : ';' ∉ kindMarker k := by
  cases k <;> decide

theorem dropPre_append (p r : List Char) : dropPre p (p ++ r) = some r := by
  induction p with
  | nil => rfl
  | cons c cs ih => simp [dropPre, ih]

theorem splitSemi_append {a : List Char} (b : List Char) (ha : ';' ∉ a) :
    splitSemi (a ++ ';' :: b) = some (a, b) := by
  induction a with
  | nil => rfl
  | cons c cs ih =>
      have hc : c ≠ ';' := fun h => ha (by simp [h])
      have hcs : ';' ∉ cs := fun h => ha (by simp [h])
      simp [splitSemi, hc, ih hcs]

theorem checksum_lt (p : List Char) : checksum p < 2 ^ 32 :=
  Nat.mod_lt _ (by norm_num)

/-- The key envelope lemma: unwrapping a manifest assembled with a stored
checksum compares that checksum against the one recomputed over the
payload. -/
theorem unwrap_wrapCk (ck : Nat) (k : CodecKind) (src payload : List Char)
    (hsrc : ';' ∉ src) (hck : ck < 2 ^ 32) :
    unwrap (wrapCk ck k src payload) =
      if ck = checksum payload then .ok (k, src, payload) else .error .ChecksumMismatch := by
  have hassem : wrapCk ck k src payload =
      (versionMarker ++ [';']) ++
        (kindMarker k ++ ';' :: (src ++ ';' :: (checksumField ck ++ ';' :: payload))) := by
    simp [wrapCk]
  have hckf : hexPairsToBytes (checksumField ck) = some (natToBytesBE 4 ck) :=
    hexPairsToBytes_bytesToHex (natToBytesBE_mem_lt 4 ck)
  have h1 := splitSemi_append (a := kindMarker k)
    (src ++ ';' :: (checksumField ck ++ ';' :: payload)) (semi_not_mem_kindMarker k)
  have h2 := splitSemi_append (a := src) (checksumField ck ++ ';' :: payload) hsrc
  have h3 := splitSemi_append (a := checksumField ck) payload
    (fun h => mem_bytesToHex_ne_semi _ ';' h rfl)
  simp only [unwrap, hassem, dropPre_append, h1, parseKind_kindMarker, h2, h3, hckf,
    natToBytesBE_length, reduceIte]
  rw [bytesBEToNat_natToBytesBE (by simpa using hck)]

theorem unwrap_wrap (k : CodecKind) (src payload : List Char) (hsrc : ';' ∉ src) :
    unwrap (wrap k src payload) = .ok (k, src, payload) := by
  rw [wrap, unwrap_wrapCk _ _ _ _ hsrc (checksum_lt payload), if_pos rfl]

theorem char_toNat_lt (c : Char) : c.toNat < 2 ^ 32 := by
  have h := c.val.val.isLt
  simpa [Char.toNat, UInt32.toNat, UInt32.size] using h

theorem char_toNat_injective {a b : Char} (h : a.toNat = b.toNat) : a = b := by
  have hv : a.val = b.val := by
    apply UInt32.ext
    simpa [Char.toNat, UInt32.toNat] using h
  exact Char.ext hv

theorem sum_map_set (p : List Char) :
    ∀ (i : Nat) (c : Char) (h : i < p.length),
      ((p.set i c).map Char.toNat).sum + (p.get ⟨i, h⟩).toNat
        = (p.map Char.toNat).sum + c.toNat := by
  induction p with
  | nil => intro i c h; simp at h
  | cons x xs ih =>
      intro i c h
      match i with
      | 0 => simp [List.set]; omega
      | i + 1 =>
          have hi : i < xs.length := by simpa using h
          have := ih i c hi
          simp only [List.set, List.map_cons, List.sum_cons, List.get] at this ⊢
          omega

/-- Mutating one character of the payload changes the checksum. -/
theorem checksum_set_ne (p : List Char) (i : Nat) (c : Char) (h : i < p.length)
    (hne : c ≠ p.get ⟨i, h⟩) : checksum (p.set i c) ≠ checksum p := by
  intro heq
  apply hne
  have hsum := sum_map_set p i c h
  have hmod : ((p.set i c).map Char.toNat).sum ≡ (p.map Char.toNat).sum [MOD 2 ^ 32] := heq
  have h1 : ((p.set i c).map Char.toNat).sum + (p.get ⟨i, h⟩).toNat ≡
      (p.map Char.toNat).sum + (p.get ⟨i, h⟩).toNat [MOD 2 ^ 32] :=
    Nat.ModEq.add_right _ hmod
  rw [hsum] at h1
  have h2 : c.toNat ≡ (p.get ⟨i, h⟩).toNat [MOD 2 ^ 32] :=
    Nat.ModEq.add_left_cancel (Nat.ModEq.refl _) h1
  have h3 : c.toNat = (p.get ⟨i, h⟩).toNat := by
    have ha := char_toNat_lt c
    have hb := char_toNat_lt (p.get ⟨i, h⟩)
    unfold Nat.ModEq at h2
    rw [Nat.mod_eq_of_lt ha, Nat.mod_eq_of_lt hb] at h2
    exact h2
  exact char_toNat_injective h3

/-- C2: Envelope unwrap fails with `MalformedManifest` when the leading
version/kind markers are absent or unrecognized, and fails with
`ChecksumMismatch` whenever the checksum recomputed over the payload
disagrees with the stored checksum; in particular, for every valid
manifest, mutating any single character of its payload makes decode fail
with `ChecksumMismatch` rather than succeed. -/
theorem C2_envelope_integrity :
    (∀ m : List Char, dropPre (versionMarker ++ [';']) m = none →
        unwrap m = .error .MalformedManifest) ∧
    (∀ kf rest : List Char, ';' ∉ kf → parseKind kf = none →
        unwrap (versionMarker ++ ';' :: (kf ++ ';' :: rest)) = .error .MalformedManifest) ∧
    (∀ (ck : Nat) (k : CodecKind) (src payload : List Char), ';' ∉ src → ck < 2 ^ 32 →
        ck ≠ checksum payload →
        unwrap (wrapCk ck k src payload) = .error .ChecksumMismatch) ∧
    (∀ (k : CodecKind) (src payload : List Char) (i : Nat) (c : Char)
        (h : i < payload.length), ';' ∉ src → c ≠ payload.get ⟨i, h⟩ →
        unwrap (wrapCk (checksum payload) k src (payload.set i c)) =
          .error .ChecksumMismatch) := by
  refine ⟨?_, ?_, ?_, ?_⟩
  · intro m hm
    rw [unwrap, hm]
  · intro kf rest hkf hparse
    have hshape : versionMarker ++ ';' :: (kf ++ ';' :: rest) =
        (versionMarker ++ [';']) ++ (kf ++ ';' :: rest) := by simp
    simp only [unwrap, hshape, dropPre_append, splitSemi_append (a := kf) rest hkf, hparse]
  · intro ck k src payload hsrc hck hne
    rw [unwrap_wrapCk _ _ _ _ hsrc hck, if_neg hne]
  · intro k src payload i c h hsrc hne
    rw [unwrap_wrapCk _ _ _ _ hsrc (checksum_lt payload),
      if_neg fun heq => checksum_set_ne payload i c h hne heq.symm]

/-- Concrete instances of C2: a manifest with no version marker, a stored
checksum that disagrees, and a single mutated payload character. -/
theorem C2_envelope_integrity_witness :
    unwrap ['X'] = .error .MalformedManifest ∧
    unwrap (wrapCk 0 .LOSSLESS ['s'] ['p']) = .error .ChecksumMismatch ∧
    unwrap (wrapCk (checksum ['p', 'q']) .LOSSLESS ['s'] (['p', 'q'].set 0 'r')) =
      .error .ChecksumMismatch :=
  ⟨C2_envelope_integrity.1 ['X'] (by decide),
   C2_envelope_integrity.2.2.1 0 .LOSSLESS ['s'] ['p'] (by decide) (by norm_num) (by decide),
   C2_envelope_integrity.2.2.2 .LOSSLESS ['s'] ['p', 'q'] 0 'r' (by decide) (by decide)
     (by decide)⟩

/-! ## Lossless codec (spec §4.2)

Modelled from the spec: `encode_lossless_to_manifest` / the lossless half of
`image_to_text_full_v3` is not in the repository snapshot.  Encode
serializes `width`, `height`, `channels` and the raw byte sequence through
the reversible radix-16 transform; decode is the inverse, failing with
`InvalidDimensions` on a zero dimension and `TruncatedPayload` when the
decoded byte count does not equal `width*height*channels`. -/

/-- Byte tag of a channel layout inside the lossless payload. -/
def channelCode : Channels → Nat
  | .RGB => 0
  | .RGBA => 1
  | .Gray => 2

/-- Inverse of `channelCode`; unknown tags are rejected. -/
def codeToChannels : Nat → Option Channels
  | 0 => some .RGB
  | 1 => some .RGBA
  | 2 => some .Gray
  | _ => none

/-- Byte-level serialization of a pixel buffer: 4-byte width, 4-byte height,
channel tag, then the raw data. -/
def losslessBytes (p : PixelBuffer) : List Nat :=
  natToBytesBE 4 p.width ++ (natToBytesBE 4 p.height ++ (channelCode p.channels :: p.data))

/-- Lossless `encode(pixelbuffer) -> manifest` (spec §4.2 composed with §4.1). -/
def encodeLossless (src : List Char) (p : PixelBuffer) : List Char :=
  wrap .LOSSLESS src (bytesToHex (losslessBytes p))

/-- Parse the byte-level lossless payload back into a pixel buffer. -/
def parseLossless (bytes : List Nat) : Except CodecError PixelBuffer :=
  match readN 4 bytes with
  | none => .error .TruncatedPayload
  | some (wb, r1) =>
    match readN 4 r1 with
    | none => .error .TruncatedPayload
    | some (hb, r2) =>
      match r2 with
      | [] => .error .TruncatedPayload
      | cb :: data =>
        match codeToChannels cb with
        | none => .error .MalformedManifest
        | some ch =>
          if bytesBEToNat wb = 0 ∨ bytesBEToNat hb = 0 then .error .InvalidDimensions
          else if data.length = bytesBEToNat wb * bytesBEToNat hb * ch.count then
            .ok ⟨bytesBEToNat wb, bytesBEToNat hb, ch, data⟩
          else .error .TruncatedPayload

/-- Lossless `decode(manifest) -> pixelbuffer` (spec §4.2 composed with §4.1). -/
def decodeLossless (m : List Char) : Except CodecError PixelBuffer :=
  match unwrap m with
  | .error e => .error e
  | .ok (k, _, payload) =>
    if k = .LOSSLESS then
      match hexPairsToBytes payload with
      | none => .error .MalformedManifest
      | some bytes => parseLossless bytes
    else .error .MalformedManifest

theorem channelCode_lt (ch : Channels) : channelCode ch < 256 := by
  cases ch <;> decide

theorem codeToChannels_channelCode (ch : Channels) :
    codeToChannels (channelCode ch) = some ch := by
  cases ch <;> rfl

theorem losslessBytes_mem_lt {p : PixelBuffer} (hp : ∀ b ∈ p.data, b < 256) :
    ∀ b ∈ losslessBytes p, b < 256 := by
  intro b hb
  simp only [losslessBytes, List.mem_append, List.mem_cons] at hb
  rcases hb with hb | hb | rfl | hb
  · exact natToBytesBE_mem_lt _ _ b hb
  · exact natToBytesBE_mem_lt _ _ b hb
  · exact channelCode_lt _
  · exact hp b hb

/-- C1: For every valid `PixelBuffer p`, the lossless codec satisfies
`decode(encode(p)) = p` bit-for-bit: encoding `p` to a manifest and
decoding that manifest reconstructs the identical width, height, channel
layout, and byte sequence. -/
theorem C1_lossless_roundtrip (p : PixelBuffer) (src : List Char)
    (hp : p.valid) (hsrc : ';' ∉ src) :
    decodeLossless (encodeLossless src p) = .ok p := by
  obtain ⟨hlen, hdata, hw, hh, hw32, hh32⟩ := hp
  have hbytes : hexPairsToBytes (bytesToHex (losslessBytes p)) = some (losslessBytes p) :=
    hexPairsToBytes_bytesToHex (losslessBytes_mem_lt hdata)
  have hr1 : readN 4 (losslessBytes p) =
      some (natToBytesBE 4 p.width, natToBytesBE 4 p.height ++ (channelCode p.channels :: p.data)) :=
    readN_append 4 _ (natToBytesBE_length 4 p.width)
  have hr2 : readN 4 (natToBytesBE 4 p.height ++ (channelCode p.channels :: p.data)) =
      some (natToBytesBE 4 p.height, channelCode p.channels :: p.data) :=
    readN_append 4 _ (natToBytesBE_length 4 p.height)
  have hwv : bytesBEToNat (natToBytesBE 4 p.width) = p.width :=
    bytesBEToNat_natToBytesBE (by simpa using hw32)
  have hhv : bytesBEToNat (natToBytesBE 4 p.height) = p.height :=
    bytesBEToNat_natToBytesBE (by simpa using hh32)
  simp only [decodeLossless, encodeLossless, unwrap_wrap _ _ _ hsrc, reduceIte, hbytes,
    parseLossless, hr1, hr2, codeToChannels_channelCode, hwv, hhv]
  simp only [Nat.pos_iff_ne_zero.1 hw, Nat.pos_iff_ne_zero.1 hh, or_self, if_false, hlen,
    reduceIte]

/-- Scenario A (spec §8): the 2×2 RGB buffer with pixels red, green, blue,
white encodes then decodes to the identical 12-byte sequence. -/
theorem C1_lossless_roundtrip_witness :
    (PixelBuffer.mk 2 2 .RGB
        [255, 0, 0, 0, 255, 0, 0, 0, 255, 255, 255, 255]).valid ∧
    decodeLossless (encodeLossless ['u']
        (PixelBuffer.mk 2 2 .RGB [255, 0, 0, 0, 255, 0, 0, 0, 255, 255, 255, 255])) =
      .ok (PixelBuffer.mk 2 2 .RGB [255, 0, 0, 0, 255, 0, 0, 0, 255, 255, 255, 255]) :=
  ⟨by decide, C1_lossless_roundtrip _ _ (by decide) (by decide)⟩

/-! ## Resampler (spec §4.3)

Modelled from the spec: the resampler of `image_to_text_full_v3` is not in
the repository snapshot.  Filters are deterministic fixed-point (1/256)
integer convolutions with edge clamping; `lanczos` uses a deterministic
fixed-point surrogate of the 3-lobe windowed sinc (the sinc itself is
transcendental; the claims about the resampler concern determinism,
dimensions and the degenerate no-op case, not kernel values).  The
degenerate case is a no-op copy exactly when the target size equals the
source size: a no-op when only one dimension matches would return a buffer
of the wrong size, contradicting the `resample(buffer, target_width,
target_height, filter) -> buffer` contract and the §4.5 requirement that
the longer side equal `max_side`. -/

/-- The four resample filter kernels (spec §4.3). -/
inductive ResampleFilter where
  | nearest
  | bilinear
  | bicubic
  | lanczos
deriving DecidableEq, Repr

/-- Clamp an integer intensity to a byte. -/
def clampByte (v : Int) : Nat := (max 0 (min v 255)).toNat

/-- Clamp an integer coordinate into `[0, n-1]` (edge replication). -/
def clampIdx (n : Nat) (v : Int) : Nat := (max 0 (min v ((n : Int) - 1))).toNat

/-- Sample a channel byte of a buffer at integer coordinates. -/
def getByte (b : PixelBuffer) (x y c : Nat) : Nat :=
  b.data.getD ((y * b.width + x) * b.channels.count + c) 0

/-- Center-aligned source coordinate of target index `i`, in 1/256 units. -/
def srcCoord (srcN dstN i : Nat) : Int :=
  ((2 * i + 1) * srcN * 128 : Int) / (dstN : Int) - 128

/-- Support radius of a filter kernel, in source pixels. -/
def kernelRadius : ResampleFilter → Nat
  | .nearest => 1
  | .bilinear => 1
  | .bicubic => 2
  | .lanczos => 3

/-- Kernel weight at an absolute distance `d` (1/256 units), scaled by 256.
`bilinear` is the triangle kernel, `bicubic` the cubic convolution kernel
with sharpness `a = -0.5`, `lanczos` a fixed-point surrogate of the 3-lobe
windowed sinc with matching support and lobe signs. -/
def kernelWeight : ResampleFilter → Int → Int
  | .nearest, d => if d < 256 then 256 else 0
  | .bilinear, d => if d < 256 then 256 - d else 0
  | .bicubic, d =>
      if d < 256 then (3 * d ^ 3 - 5 * 256 * d ^ 2 + 2 * 256 ^ 3) / (2 * 256 ^ 2)
      else if d < 512 then (-(d ^ 3) + 5 * 256 * d ^ 2 - 8 * 256 ^ 2 * d + 4 * 256 ^ 3) / (2 * 256 ^ 2)
      else 0
  | .lanczos, d =>
      if d < 768 then
        (if 256 ≤ d ∧ d < 512 then -1 else 1) * (((768 - d) * (768 - d)) / 2304)
      else 0

/-- Kernel weight of a source tap at integer coordinate `s` for the
fractional source coordinate `f` (in 1/256 units). -/
def kernelWeight' (ker : Int → Int) (f s : Int) : Int := ker (Int.natAbs (f - s * 256))

/-- One output channel byte of the convolution-based filters. -/
def convSample (b : PixelBuffer) (tw th : Nat) (r : Nat) (ker : Int → Int) (x y c : Nat) : Nat :=
  let fx := srcCoord b.width tw x
  let fy := srcCoord b.height th y
  let bx := fx / 256
  let bY := fy / 256
  let offs : List Int := (List.range (2 * r)).map fun j => (j : Int) - ((r : Int) - 1)
  let contribs : List (Int × Int) :=
    (offs.map fun dy =>
      offs.map fun dx =>
        let w := kernelWeight' ker fx (bx + dx) * kernelWeight' ker fy (bY + dy)
        let p := getByte b (clampIdx b.width (bx + dx)) (clampIdx b.height (bY + dy)) c
        (w, w * (p : Int))).flatten
  let total := (contribs.map Prod.fst).sum
  let acc := (contribs.map Prod.snd).sum
  if total = 0 then min 255 (getByte b (clampIdx b.width bx) (clampIdx b.height bY) c)
  else clampByte (acc / total)

/-- One output channel byte for a filter (spec §4.3): `nearest` picks the
nearest source pixel under uniform scaling (ties toward the lower index),
the other filters are kernel convolutions with edge clamping. -/
def samplePixel (f : ResampleFilter) (b : PixelBuffer) (tw th x y c : Nat) : Nat :=
  match f with
  | .nearest =>
      min 255 (getByte b (min ((x * b.width) / tw) (b.width - 1))
        (min ((y * b.height) / th) (b.height - 1)) c)
  | .bilinear => convSample b tw th (kernelRadius .bilinear) (kernelWeight .bilinear) x y c
  | .bicubic => convSample b tw th (kernelRadius .bicubic) (kernelWeight .bicubic) x y c
  | .lanczos => convSample b tw th (kernelRadius .lanczos) (kernelWeight .lanczos) x y c

/-- `resample(buffer, target_width, target_height, filter) -> buffer`
(spec §4.3).  A target size equal to the source size is a no-op copy, not a
filter pass. -/
def resample (b : PixelBuffer) (tw th : Nat) (f : ResampleFilter) : PixelBuffer :=
  if tw = b.width ∧ th = b.height then b
  else
    ⟨tw, th, b.channels,
      ((List.range th).map fun y =>
        ((List.range tw).map fun x =>
          (List.range b.channels.count).map fun c => samplePixel f b tw th x y c).flatten).flatten⟩

theorem sum_map_const_of {β : Type _} {l : List β} {g : β → Nat} {k : Nat}
    (h : ∀ x ∈ l, g x = k) : (l.map g).sum = l.length * k := by
  induction l with
  | nil => simp
  | cons x xs ih =>
      simp only [List.map_cons, List.sum_cons, List.length_cons, h x (by simp)]
      rw [ih fun x hx => h x (by simp [hx])]
      ring

theorem length_flatten_const {β : Type _} (n k : Nat) (f : Nat → List β)
    (h : ∀ i, (f i).length = k) : (((List.range n).map f).flatten).length = n * k := by
  rw [List.length_flatten, List.map_map]
  simp only [Function.comp_def]
  rw [sum_map_const_of fun x _ => h x]
  simp

theorem clampByte_le (v : Int) : clampByte v ≤ 255 := by
  unfold clampByte; omega

theorem convSample_lt (b : PixelBuffer) (tw th r : Nat) (ker : Int → Int) (x y c : Nat) :
    convSample b tw th r ker x y c < 256 := by
  simp only [convSample]
  split
  · omega
  · exact Nat.lt_succ_of_le (clampByte_le _)

theorem samplePixel_lt (f : ResampleFilter) (b : PixelBuffer) (tw th x y c : Nat) :
    samplePixel f b tw th x y c < 256 := by
  cases f with
  | nearest => simp only [samplePixel]; omega
  | bilinear => simp only [samplePixel]; exact convSample_lt ..
  | bicubic => simp only [samplePixel]; exact convSample_lt ..
  | lanczos => simp only [samplePixel]; exact convSample_lt ..

theorem resample_width (b : PixelBuffer) (tw th : Nat) (f : ResampleFilter) :
    (resample b tw th f).width = tw := by
  unfold resample; split
  · next h => exact h.1.symm
  · rfl

theorem resample_height (b : PixelBuffer) (tw th : Nat) (f : ResampleFilter) :
    (resample b tw th f).height = th := by
  unfold resample; split
  · next h => exact h.2.symm
  · rfl

theorem resample_channels (b : PixelBuffer) (tw th : Nat) (f : ResampleFilter) :
    (resample b tw th f).channels = b.channels := by
  unfold resample; split <;> rfl

theorem resample_data_length (b : PixelBuffer) (tw th : Nat) (f : ResampleFilter)
    (hb : b.data.length = b.width * b.height * b.channels.count) :
    (resample b tw th f).data.length = tw * th * b.channels.count := by
  unfold resample; split
  · next h => rw [hb, h.1, h.2]
  · simp only
    rw [length_flatten_const th (tw * b.channels.count) _ fun y =>
      length_flatten_const tw b.channels.count _ fun x => by simp]
    ring

theorem resample_data_lt (b : PixelBuffer) (tw th : Nat) (f : ResampleFilter)
    (hb : ∀ v ∈ b.data, v < 256) :
    ∀ v ∈ (resample b tw th f).data, v < 256 := by
  unfold resample; split
  · exact hb
  · intro v hv
    simp only at hv
    obtain ⟨row, hrowmem, hvrow⟩ := List.mem_flatten.1 hv
    obtain ⟨y, -, rfl⟩ := List.mem_map.1 hrowmem
    obtain ⟨grp, hgrpmem, hvgrp⟩ := List.mem_flatten.1 hvrow
    obtain ⟨x, -, rfl⟩ := List.mem_map.1 hgrpmem
    obtain ⟨c, -, rfl⟩ := List.mem_map.1 hvgrp
    exact samplePixel_lt ..

/-- Encoded target dimensions of the lossy pipelines (spec §4.5): with
`lock_dims` the source dimensions are preserved; otherwise, when a
dimension exceeds `max_side`, the longer side becomes `max_side` and the
other side preserves the aspect ratio, rounded to nearest, minimum 1px. -/
def targetDims (w h : Nat) (lock : Bool) (ms : Nat) : Nat × Nat :=
  if lock then (w, h)
  else if w ≤ ms ∧ h ≤ ms then (w, h)
  else if h ≤ w then (ms, max 1 ((h * ms + w / 2) / w))
  else (max 1 ((w * ms + h / 2) / h), ms)

/-- C8 counterexample: the claim as stated quantifies over targets where
only one dimension matches the source.  Resampling a 2×2 buffer to 2×1 has
`target_width` equal to the source width, yet the output is a 2×1 buffer,
not the input. -/
theorem C8_resample_noop_counterexample :
    resample (PixelBuffer.mk 2 2 .Gray [10, 20, 30, 40]) 2 1 .nearest ≠
      PixelBuffer.mk 2 2 .Gray [10, 20, 30, 40] := by
  decide

/-- C8 amended: for every buffer and every filter, `resample` with both
`target_width` and `target_height` equal to the source dimensions performs
a no-op copy (no filter pass), so the output buffer equals the input
buffer exactly. -/
theorem C8_resample_noop (b : PixelBuffer) (f : ResampleFilter) :
    resample b b.width b.height f = b := by
  simp [resample]

/-! ## Palette Quantizer (spec §4.4)

Modelled from the spec: the quantizer of `image_to_text_full_v3` is not in
the repository snapshot.  Palette selection is a deterministic clustering
of the median-cut family: iteratively split the first bucket whose color
range is nonzero, along its dominant-range axis, at the midpoint of that
axis; each bucket contributes its average color, ordered by selection
order.  Index assignment maps each pixel to the palette entry of minimum
squared Euclidean distance, ties toward the lower palette index.
Optional Floyd–Steinberg error diffusion (7/16, 3/16, 5/16, 1/16) runs in
row-major, left-to-right, top-to-bottom order. -/

/-- An RGB color triple. -/
abbrev Color := Nat × Nat × Nat

/-- Channel component of a color (`0` red, `1` green, `2` blue). -/
def comp (i : Nat) (c : Color) : Nat :=
  if i = 0 then c.1 else if i = 1 then c.2.1 else c.2.2

/-- All three components of a color are bytes. -/
def colorLt256 (c : Color) : Prop := c.1 < 256 ∧ c.2.1 < 256 ∧ c.2.2 < 256

instance (c : Color) : Decidable (colorLt256 c) := by unfold colorLt256; infer_instance

/-- Maximum of a channel over a bucket. -/
def chMax (i : Nat) (cs : List Color) : Nat := (cs.map (comp i)).foldr max 0

/-- Minimum of a channel over a bucket (0 on the empty bucket). -/
def chMin (i : Nat) (cs : List Color) : Nat :=
  match cs with
  | [] => 0
  | c :: rest => (rest.map (comp i)).foldr min (comp i c)

/-- Range of a channel over a bucket. -/
def chRange (i : Nat) (cs : List Color) : Nat := chMax i cs - chMin i cs

/-- Largest channel range of a bucket. -/
def bucketRange (cs : List Color) : Nat :=
  max (chRange 0 cs) (max (chRange 1 cs) (chRange 2 cs))

/-- Dominant-range axis of a bucket (first axis attaining the range). -/
def domAxis (cs : List Color) : Nat :=
  if chRange 0 cs = bucketRange cs then 0
  else if chRange 1 cs = bucketRange cs then 1
  else 2

/-- Split a bucket at the midpoint of its dominant-range axis. -/
def splitBucket (cs : List Color) : List Color × List Color :=
  let i := domAxis cs
  let mid := (chMin i cs + chMax i cs) / 2
  (cs.filter fun c => comp i c ≤ mid, cs.filter fun c => ¬ comp i c ≤ mid)

/-- One splitting step: split the first bucket with a nonzero range. -/
def splitOnce : List (List Color) → List (List Color)
  | [] => []
  | b :: bs =>
      if 0 < bucketRange b then (splitBucket b).1 :: (splitBucket b).2 :: bs
      else b :: splitOnce bs

/-- Iterate `splitOnce`. -/
def iterSplit : Nat → List (List Color) → List (List Color)
  | 0, bs => bs
  | k + 1, bs => iterSplit k (splitOnce bs)

/-- Representative (average) color of a bucket. -/
def avgColor (cs : List Color) : Color :=
  ((cs.map (comp 0)).sum / cs.length, (cs.map (comp 1)).sum / cs.length,
    (cs.map (comp 2)).sum / cs.length)

theorem foldr_min_le_init (l : List Nat) (a : Nat) : l.foldr min a ≤ a := by
  induction l with
  | nil => simp
  | cons x xs ih => simp only [List.foldr_cons]; omega

theorem foldr_min_attained (l : List Nat) (a : Nat) :
    l.foldr min a = a ∨ l.foldr min a ∈ l := by
  induction l with
  | nil => simp
  | cons x xs ih =>
      simp only [List.foldr_cons, List.mem_cons]
      rcases Nat.le_total x (xs.foldr min a) with hle | hle
      · rw [min_eq_left hle]
        right; left; rfl
      · rw [min_eq_right hle]
        rcases ih with h | h
        · exact Or.inl h
        · exact Or.inr (Or.inr h)

theorem foldr_min_le_mem (l : List Nat) (a : Nat) : ∀ x ∈ l, l.foldr min a ≤ x := by
  induction l with
  | nil => simp
  | cons y ys ih =>
      intro x hx
      simp only [List.foldr_cons]
      rcases List.mem_cons.1 hx with rfl | hx
      · omega
      · have := ih x hx; omega

theorem foldr_max_mem_le (l : List Nat) (a : Nat) : ∀ x ∈ l, x ≤ l.foldr max a := by
  induction l with
  | nil => simp
  | cons y ys ih =>
      intro x hx
      simp only [List.foldr_cons]
      rcases List.mem_cons.1 hx with rfl | hx
      · omega
      · have := ih x hx; omega

theorem foldr_max_attained (l : List Nat) (a : Nat) :
    l.foldr max a = a ∨ l.foldr max a ∈ l := by
  induction l with
  | nil => simp
  | cons x xs ih =>
      simp only [List.foldr_cons, List.mem_cons]
      rcases Nat.le_total x (xs.foldr max a) with hle | hle
      · rw [max_eq_right hle]
        rcases ih with h | h
        · exact Or.inl h
        · exact Or.inr (Or.inr h)
      · rw [max_eq_left hle]
        right; left; rfl

theorem chMin_le_of_mem {i : Nat} {cs : List Color} : ∀ c ∈ cs, chMin i cs ≤ comp i c := by
  match cs with
  | [] => simp
  | x :: xs =>
      intro c hc
      unfold chMin
      rcases List.mem_cons.1 hc with rfl | hc
      · exact foldr_min_le_init _ _
      · exact foldr_min_le_mem _ _ _ (List.mem_map_of_mem (comp i) hc)

theorem le_chMax_of_mem {i : Nat} {cs : List Color} : ∀ c ∈ cs, comp i c ≤ chMax i cs := by
  intro c hc
  exact foldr_max_mem_le _ _ _ (List.mem_map_of_mem (comp i) hc)

theorem chMin_attained {i : Nat} {cs : List Color} (h : cs ≠ []) :
    ∃ c ∈ cs, comp i c = chMin i cs := by
  match cs with
  | x :: xs =>
      unfold chMin
      rcases foldr_min_attained (xs.map (comp i)) (comp i x) with h | h
      · exact ⟨x, by simp, h.symm⟩
      · obtain ⟨c, hc, hv⟩ := List.mem_map.1 h
        exact ⟨c, by simp [hc], hv⟩

theorem chMax_attained {i : Nat} {cs : List Color} (h : 0 < chMax i cs) :
    ∃ c ∈ cs, comp i c = chMax i cs := by
  rcases foldr_max_attained (cs.map (comp i)) 0 with h0 | h0
  · unfold chMax at h; omega
  · obtain ⟨c, hc, hv⟩ := List.mem_map.1 h0
    exact ⟨c, hc, hv⟩

theorem domAxis_range (cs : List Color) : chRange (domAxis cs) cs = bucketRange cs := by
  unfold domAxis
  split
  · next h => exact h
  split
  · next h => exact h
  next h0 h1 =>
    rcases max_choice (chRange 0 cs) (max (chRange 1 cs) (chRange 2 cs)) with hc | hc
    · exact absurd hc.symm h0
    rcases max_choice (chRange 1 cs) (chRange 2 cs) with hd | hd
    · rw [bucketRange, hc, hd] at h1 ⊢; exact absurd rfl h1
    · rw [bucketRange, hc, hd]

theorem splitBucket_nonempty {cs : List Color} (h : 0 < bucketRange cs) :
    (splitBucket cs).1 ≠ [] ∧ (splitBucket cs).2 ≠ [] := by
  have hcs : cs ≠ [] := by
    intro hnil
    subst hnil
    simp [bucketRange, chRange, chMax, chMin] at h
  have hrange : chMin (domAxis cs) cs < chMax (domAxis cs) cs := by
    have := domAxis_range cs
    unfold chRange at this
    omega
  obtain ⟨cmin, hcminmem, hcmin⟩ := chMin_attained (i := domAxis cs) hcs
  obtain ⟨cmax, hcmaxmem, hcmax⟩ := @chMax_attained (domAxis cs) cs (by omega)
  simp only [splitBucket]
  constructor
  · apply List.ne_nil_of_mem (a := cmin)
    apply List.mem_filter.2
    exact ⟨hcminmem, decide_eq_true (by omega)⟩
  · apply List.ne_nil_of_mem (a := cmax)
    apply List.mem_filter.2
    refine ⟨hcmaxmem, decide_eq_true ?_⟩
    simp only [not_le]
    omega

theorem splitOnce_length (bs : List (List Color)) :
    (splitOnce bs).length ≤ bs.length + 1 := by
  induction bs with
  | nil => simp [splitOnce]
  | cons b bs ih =>
      unfold splitOnce
      split
      · simp
      · simp only [List.length_cons]; omega

theorem iterSplit_length (k : Nat) (bs : List (List Color)) :
    (iterSplit k bs).length ≤ bs.length + k := by
  induction k generalizing bs with
  | zero => simp [iterSplit]
  | succ k ih =>
      calc (iterSplit (k + 1) bs).length = (iterSplit k (splitOnce bs)).length := rfl
      _ ≤ (splitOnce bs).length + k := ih _
      _ ≤ bs.length + (k + 1) := by have := splitOnce_length bs; omega

theorem splitOnce_ne_nil {bs : List (List Color)} (h : bs ≠ []) : splitOnce bs ≠ [] := by
  match bs with
  | b :: bs =>
      unfold splitOnce
      split <;> simp

theorem iterSplit_ne_nil (k : Nat) {bs : List (List Color)} (h : bs ≠ []) :
    iterSplit k bs ≠ [] := by
  induction k generalizing bs with
  | zero => exact h
  | succ k ih => exact ih (splitOnce_ne_nil h)

theorem splitOnce_nonempty {bs : List (List Color)} (h : ∀ b ∈ bs, b ≠ []) :
    ∀ b ∈ splitOnce bs, b ≠ [] := by
  induction bs with
  | nil => simp [splitOnce]
  | cons b0 bs ih =>
      unfold splitOnce
      split
      · next hr =>
          intro b hb
          rcases List.mem_cons.1 hb with rfl | hb
          · exact (splitBucket_nonempty hr).1
          rcases List.mem_cons.1 hb with rfl | hb
          · exact (splitBucket_nonempty hr).2
          · exact h b (by simp [hb])
      · intro b hb
        rcases List.mem_cons.1 hb with rfl | hb
        · exact h b (by simp)
        · exact ih (fun x hx => h x (by simp [hx])) b hb

theorem splitOnce_subset {P : Color → Prop} {bs : List (List Color)}
    (h : ∀ b ∈ bs, ∀ c ∈ b, P c) : ∀ b ∈ splitOnce bs, ∀ c ∈ b, P c := by
  induction bs with
  | nil => simp [splitOnce]
  | cons b0 bs ih =>
      unfold splitOnce
      split
      · intro b hb c hc
        rcases List.mem_cons.1 hb with rfl | hb
        · exact h b0 (by simp) c (List.mem_of_mem_filter hc)
        rcases List.mem_cons.1 hb with rfl | hb
        · exact h b0 (by simp) c (List.mem_of_mem_filter hc)
        · exact h b (by simp [hb]) c hc
      · intro b hb c hc
        rcases List.mem_cons.1 hb with rfl | hb
        · exact h b (by simp) c hc
        · exact ih (fun x hx => h x (by simp [hx])) b hb c hc

theorem iterSplit_nonempty (k : Nat) {bs : List (List Color)} (h : ∀ b ∈ bs, b ≠ []) :
    ∀ b ∈ iterSplit k bs, b ≠ [] := by
  induction k generalizing bs with
  | zero => exact h
  | succ k ih => exact ih (splitOnce_nonempty h)

theorem iterSplit_subset (k : Nat) {P : Color → Prop} {bs : List (List Color)}
    (h : ∀ b ∈ bs, ∀ c ∈ b, P c) : ∀ b ∈ iterSplit k bs, ∀ c ∈ b, P c := by
  induction k generalizing bs with
  | zero => exact h
  | succ k ih => exact ih (splitOnce_subset h)

theorem comp_lt_256 {c : Color} (h : colorLt256 c) (i : Nat) : comp i c < 256 := by
  obtain ⟨h1, h2, h3⟩ := h
  unfold comp
  split
  · exact h1
  split
  · exact h2
  · exact h3

theorem avgColor_lt256 {cs : List Color} (h : ∀ c ∈ cs, colorLt256 c) :
    colorLt256 (avgColor cs) := by
  have key : ∀ i : Nat, (cs.map (comp i)).sum / cs.length < 256 := by
    intro i
    match cs with
    | [] => simp
    | c0 :: cs' =>
        have hle : ∀ v ∈ ((c0 :: cs').map (comp i)), v ≤ 255 := by
          intro v hv
          obtain ⟨c, hc, rfl⟩ := List.mem_map.1 hv
          have := comp_lt_256 (h c hc) i
          omega
        have hsum : ((c0 :: cs').map (comp i)).sum ≤ ((c0 :: cs').map (comp i)).length • 255 :=
          List.sum_le_card_nsmul _ 255 hle
        rw [Nat.div_lt_iff_lt_mul (by simp)]
        simp only [List.length_map, smul_eq_mul] at hsum
        have hl : 0 < (c0 :: cs').length := by simp
        calc ((c0 :: cs').map (comp i)).sum ≤ (c0 :: cs').length * 255 := hsum
        _ < 256 * (c0 :: cs').length := by
            rw [Nat.mul_comm]
            exact Nat.mul_lt_mul_of_lt_of_le (by norm_num) (le_refl _) hl
  exact ⟨key 0, key 1, key 2⟩

/-- Squared Euclidean color-space distance. -/
def dist2 (a b : Color) : Int :=
  ((a.1 : Int) - b.1) ^ 2 + ((a.2.1 : Int) - b.2.1) ^ 2 + ((a.2.2 : Int) - b.2.2) ^ 2

/-- Index of the palette entry of minimum Euclidean distance to `c`;
ties break toward the lower palette index. -/
def nearestIndex (pal : List Color) (c : Color) : Nat :=
  match pal with
  | [] => 0
  | [_] => 0
  | p :: q :: rest =>
      let j := nearestIndex (q :: rest) c
      if dist2 c p ≤ dist2 c ((q :: rest).getD j (0, 0, 0)) then 0 else j + 1

theorem nearestIndex_lt : ∀ {pal : List Color}, pal ≠ [] → ∀ c : Color,
    nearestIndex pal c < pal.length := by
  intro pal
  induction pal with
  | nil => simp
  | cons p tail ih =>
      intro _ c
      cases tail with
      | nil => simp [nearestIndex]
      | cons q rest =>
          have hlt := ih (by simp) c
          simp only [nearestIndex]
          split
          · simp
          · simp only [List.length_cons] at hlt ⊢
            omega

/-- Color of one chunked pixel group under a channel layout. -/
def toColor (ch : Channels) (l : List Nat) : Color :=
  match ch with
  | .Gray => (l.getD 0 0, l.getD 0 0, l.getD 0 0)
  | .RGB => (l.getD 0 0, l.getD 1 0, l.getD 2 0)
  | .RGBA => (l.getD 0 0, l.getD 1 0, l.getD 2 0)

/-- The pixel list of a buffer, row-major. -/
def pixelsOf (b : PixelBuffer) : List Color :=
  (chunk b.channels.count b.data).map (toColor b.channels)

theorem channels_count_pos (ch : Channels) : 0 < ch.count := by
  cases ch <;> simp [Channels.count]

theorem pixelsOf_length {b : PixelBuffer}
    (hb : b.data.length = b.width * b.height * b.channels.count) :
    (pixelsOf b).length = b.width * b.height := by
  unfold pixelsOf
  rw [List.length_map]
  exact chunk_length (channels_count_pos b.channels) (b.width * b.height) _ hb

theorem toColor_lt256 {ch : Channels} {l : List Nat} (h : ∀ v ∈ l, v < 256) :
    colorLt256 (toColor ch l) := by
  have hg : ∀ i, l.getD i 0 < 256 := by
    intro i
    rcases Nat.lt_or_ge i l.length with hi | hi
    · rw [List.getD_eq_getElem _ _ hi]; exact h _ (List.getElem_mem hi)
    · rw [List.getD_eq_default _ _ hi]; norm_num
  cases ch <;> exact ⟨hg _, hg _, hg _⟩

theorem pixelsOf_lt256 {b : PixelBuffer}
    (hb : b.data.length = b.width * b.height * b.channels.count)
    (hd : ∀ v ∈ b.data, v < 256) :
    ∀ c ∈ pixelsOf b, colorLt256 c := by
  intro c hc
  obtain ⟨r, hr, rfl⟩ := List.mem_map.1 hc
  have hspec := chunk_spec (channels_count_pos b.channels) (b.width * b.height) b.data hb r hr
  exact toColor_lt256 fun v hv => hd v (hspec.2 v hv)

/-! ### Floyd–Steinberg error diffusion (spec §4.4) -/

/-- A signed color-error triple. -/
abbrev IColor := Int × Int × Int

/-- Componentwise addition of error triples. -/
def add3 (a b : IColor) : IColor := (a.1 + b.1, a.2.1 + b.2.1, a.2.2 + b.2.2)

/-- `k/16` of an error triple (the Floyd–Steinberg fractions). -/
def scaleDiv16 (k : Int) (e : IColor) : IColor :=
  (k * e.1 / 16, k * e.2.1 / 16, k * e.2.2 / 16)

/-- Clamp a signed color back to bytes. -/
def clampColor (e : IColor) : Color := (clampByte e.1, clampByte e.2.1, clampByte e.2.2)

/-- A color as a signed triple. -/
def colorToI (c : Color) : IColor := ((c.1 : Int), (c.2.1 : Int), (c.2.2 : Int))

/-- Signed difference of two colors. -/
def subColor (a q : Color) : IColor :=
  ((a.1 : Int) - q.1, (a.2.1 : Int) - q.2.1, (a.2.2 : Int) - q.2.2)

/-- Quantize one pixel given its accumulated error: the chosen palette
index and the fresh quantization error. -/
def fsPixel (pal : List Color) (c : Color) (e : IColor) : Nat × IColor :=
  let adj := clampColor (add3 (colorToI c) e)
  let i := nearestIndex pal adj
  (i, subColor adj (pal.getD i (0, 0, 0)))

/-- Quantize one row left to right, carrying `7/16` of each error to the
right neighbor; `inc` holds the errors diffused down from the row above. -/
def quantRow (pal : List Color) : List Color → List IColor → IColor → List (Nat × IColor)
  | [], _, _ => []
  | c :: cs, inc, carry =>
      let e := add3 carry (inc.headD (0, 0, 0))
      let r := fsPixel pal c e
      r :: quantRow pal cs inc.tail (scaleDiv16 7 r.2)

/-- Errors a row diffuses into the row below it: position `x` receives
`3/16` from its upper-right neighbor, `5/16` from directly above and
`1/16` from its upper-left neighbor. -/
def nextRowErrs (errs : List IColor) : List IColor :=
  (List.range errs.length).map fun x =>
    add3 (add3 (scaleDiv16 3 (errs.getD (x + 1) (0, 0, 0)))
        (scaleDiv16 5 (errs.getD x (0, 0, 0))))
      (scaleDiv16 1 (if x = 0 then (0, 0, 0) else errs.getD (x - 1) (0, 0, 0)))

/-- Quantize the rows top to bottom, diffusing errors downward. -/
def fsRows (pal : List Color) : List (List Color) → List IColor → List Nat
  | [], _ => []
  | r :: rs, inc =>
      let pe := quantRow pal r inc (0, 0, 0)
      pe.map Prod.fst ++ fsRows pal rs (nextRowErrs (pe.map Prod.snd))

theorem quantRow_length (pal : List Color) :
    ∀ (row : List Color) (inc : List IColor) (carry : IColor),
      (quantRow pal row inc carry).length = row.length := by
  intro row
  induction row with
  | nil => intro inc carry; rfl
  | cons c cs ih =>
      intro inc carry
      simp only [quantRow, List.length_cons, ih]

theorem quantRow_fst_lt {pal : List Color} (hp : pal ≠ []) :
    ∀ (row : List Color) (inc : List IColor) (carry : IColor),
      ∀ x ∈ quantRow pal row inc carry, x.1 < pal.length := by
  intro row
  induction row with
  | nil => intro inc carry x hx; simp [quantRow] at hx
  | cons c cs ih =>
      intro inc carry x hx
      simp only [quantRow] at hx
      rcases List.mem_cons.1 hx with rfl | hx
      · simp only [fsPixel]
        exact nearestIndex_lt hp _
      · exact ih _ _ x hx

theorem fsRows_length (pal : List Color) :
    ∀ (rows : List (List Color)) (inc : List IColor),
      (fsRows pal rows inc).length = (rows.map List.length).sum := by
  intro rows
  induction rows with
  | nil => intro inc; rfl
  | cons r rs ih =>
      intro inc
      simp only [fsRows, List.length_append, List.length_map, quantRow_length, ih,
        List.map_cons, List.sum_cons]

theorem fsRows_mem_lt {pal : List Color} (hp : pal ≠ []) :
    ∀ (rows : List (List Color)) (inc : List IColor),
      ∀ i ∈ fsRows pal rows inc, i < pal.length := by
  intro rows
  induction rows with
  | nil => intro inc i hi; simp [fsRows] at hi
  | cons r rs ih =>
      intro inc i hi
      simp only [fsRows] at hi
      rcases List.mem_append.1 hi with hi | hi
      · obtain ⟨x, hx, rfl⟩ := List.mem_map.1 hi
        exact quantRow_fst_lt hp _ _ _ x hx
      · exact ih _ i hi

/-! ### The quantizer (spec §4.4) -/

/-- An index map: encoded dimensions plus the row-major palette indices. -/
structure IndexMap where
  width : Nat
  height : Nat
  indices : List Nat
deriving DecidableEq, Repr

/-- The palette: buckets of the iterated split, averaged, in selection
order (at most `ps` colors for `ps ≥ 1`). -/
def lossyPalette (px : List Color) (ps : Nat) : List Color :=
  (iterSplit (ps - 1) [px]).map avgColor

/-- The index assignment, with or without error diffusion. -/
def lossyIndices (pal : List Color) (w : Nat) (px : List Color) (dither : Bool) : List Nat :=
  if dither then fsRows pal (chunk w px) (List.replicate w ((0 : Int), (0 : Int), (0 : Int)))
  else px.map (nearestIndex pal)

/-- `quantize(buffer, palette_size, dither) -> (Palette, IndexMap)`
(spec §4.4); `palette_size` outside `[1, 256]` fails with
`InvalidPaletteSize`. -/
def quantize (b : PixelBuffer) (ps : Nat) (dither : Bool) :
    Except CodecError (List Color × IndexMap) :=
  if ps < 1 ∨ 256 < ps then .error .InvalidPaletteSize
  else
    .ok (lossyPalette (pixelsOf b) ps,
      ⟨b.width, b.height,
        lossyIndices (lossyPalette (pixelsOf b) ps) b.width (pixelsOf b) dither⟩)

theorem lossyPalette_length_le (px : List Color) {ps : Nat} (hps : 1 ≤ ps) :
    (lossyPalette px ps).length ≤ ps := by
  unfold lossyPalette
  rw [List.length_map]
  have := iterSplit_length (ps - 1) [px]
  simp only [List.length_cons, List.length_nil] at this
  omega

theorem lossyPalette_ne_nil (px : List Color) (ps : Nat) :
    lossyPalette px ps ≠ [] := by
  unfold lossyPalette
  have h1 : iterSplit (ps - 1) [px] ≠ [] := iterSplit_ne_nil _ (by simp)
  simpa using h1

theorem lossyPalette_lt256 {px : List Color} (ps : Nat)
    (hpx : ∀ c ∈ px, colorLt256 c) : ∀ c ∈ lossyPalette px ps, colorLt256 c := by
  intro c hc
  obtain ⟨bkt, hbkt, rfl⟩ := List.mem_map.1 hc
  apply avgColor_lt256
  intro x hx
  refine @iterSplit_subset (ps - 1) colorLt256 [px] ?_ bkt hbkt x hx
  intro b hb y hy
  rw [List.mem_singleton.1 hb] at hy
  exact hpx y hy

theorem lossyIndices_length (pal : List Color) {w hgt : Nat} {px : List Color}
    (dither : Bool) (hlen : px.length = hgt * w) :
    (lossyIndices pal w px dither).length = hgt * w := by
  rcases Nat.eq_zero_or_pos w with rfl | hw
  · have hnil : px = [] := List.eq_nil_of_length_eq_zero (by omega)
    subst hnil
    unfold lossyIndices
    split
    · rw [chunk_nil]
      simp [fsRows]
    · simp
  · unfold lossyIndices
    split
    · rw [fsRows_length]
      have hspec := chunk_spec hw hgt px hlen
      have hcnt := chunk_length hw hgt px hlen
      rw [sum_map_const_of fun r hr => (hspec r hr).1, hcnt]
    · rw [List.length_map]; exact hlen

theorem lossyIndices_mem_lt {pal : List Color} (hp : pal ≠ []) (w : Nat)
    (px : List Color) (dither : Bool) :
    ∀ i ∈ lossyIndices pal w px dither, i < pal.length := by
  unfold lossyIndices
  split
  · exact fsRows_mem_lt hp _ _
  · intro i hi
    obtain ⟨c, hc, rfl⟩ := List.mem_map.1 hi
    exact nearestIndex_lt hp c

/-! ## Lossy-Algo codec (spec §4.5)

Modelled from the spec: composes the resampler and the quantizer, then
serializes `Palette` + `IndexMap` + original/target dimensions into the
payload and wraps it with the envelope.  Decode unwraps, deserializes, and
reconstructs a `PixelBuffer` by palette lookup per index at the *encoded*
resolution; diagnostics report encoded dimensions, palette size used and
whether dithering was applied. -/

/-- Diagnostics record of a lossy-algo decode (spec §4.5). -/
structure LossyDiag where
  encWidth : Nat
  encHeight : Nat
  paletteSize : Nat
  dithered : Bool
deriving DecidableEq, Repr

/-- The three bytes of a palette color. -/
def colorBytes (c : Color) : List Nat := [c.1, c.2.1, c.2.2]

/-- Byte-level payload of the lossy-algo codec: original dimensions, dither
flag, palette count (2 bytes), palette colors, encoded dimensions, and the
index bytes. -/
def serializeLossyAlgo (origW origH : Nat) (dither : Bool) (pal : List Color)
    (im : IndexMap) : List Nat :=
  natToBytesBE 4 origW ++ (natToBytesBE 4 origH ++ ((if dither then 1 else 0) ::
    (natToBytesBE 2 pal.length ++ ((pal.map colorBytes).flatten ++
      (natToBytesBE 4 im.width ++ (natToBytesBE 4 im.height ++ im.indices))))))

/-- Parse the byte-level lossy-algo payload:
`(origW, origH, dither, palette, encW, encH, indices)`. -/
def parseLossyAlgo (bytes : List Nat) :
    Except CodecError (Nat × Nat × Bool × List Color × Nat × Nat × List Nat) :=
  match readN 4 bytes with
  | none => .error .TruncatedPayload
  | some (owb, r1) =>
    match readN 4 r1 with
    | none => .error .TruncatedPayload
    | some (ohb, r2) =>
      match r2 with
      | [] => .error .TruncatedPayload
      | db :: r3 =>
        match readN 2 r3 with
        | none => .error .TruncatedPayload
        | some (pcb, r4) =>
          match readN (3 * bytesBEToNat pcb) r4 with
          | none => .error .TruncatedPayload
          | some (palb, r5) =>
            match readN 4 r5 with
            | none => .error .TruncatedPayload
            | some (twb, r6) =>
              match readN 4 r6 with
              | none => .error .TruncatedPayload
              | some (thb, idx) =>
                .ok (bytesBEToNat owb, bytesBEToNat ohb, db = 1,
                  (chunk 3 palb).map (fun l => (l.getD 0 0, l.getD 1 0, l.getD 2 0)),
                  bytesBEToNat twb, bytesBEToNat thb, idx)

/-- Lossy-algo `encode` (spec §4.5): downscale per `targetDims`, quantize,
serialize, wrap.  Fails with `InvalidPaletteSize` for `palette_size`
outside `[1, 256]`, producing no manifest. -/
def encodeLossyAlgo (b : PixelBuffer) (src : List Char) (lockDims : Bool)
    (maxSide paletteSize : Nat) (f : ResampleFilter) (dither : Bool) :
    Except CodecError (List Char) :=
  match quantize (resample b (targetDims b.width b.height lockDims maxSide).1
      (targetDims b.width b.height lockDims maxSide).2 f) paletteSize dither with
  | .error e => .error e
  | .ok (pal, im) =>
      .ok (wrap .LOSSY_ALGO src (bytesToHex (serializeLossyAlgo b.width b.height dither pal im)))

/-- Palette lookup per index, producing the reconstructed RGB bytes. -/
def reconstructLossy (pal : List Color) (indices : List Nat) : List Nat :=
  (indices.map fun i => colorBytes (pal.getD i (0, 0, 0))).flatten

/-- Lossy-algo `decode` (spec §4.5): unwrap, deserialize, validate
(`TruncatedPayload` when the index count does not match the encoded
dimensions, `IndexOutOfRange` when an index is `≥` the palette size), and
rebuild the buffer at the encoded resolution by palette lookup. -/
def decodeLossyAlgo (m : List Char) : Except CodecError (PixelBuffer × LossyDiag) :=
  match unwrap m with
  | .error e => .error e
  | .ok (k, _, payload) =>
    if k = .LOSSY_ALGO then
      match hexPairsToBytes payload with
      | none => .error .MalformedManifest
      | some bytes =>
        match parseLossyAlgo bytes with
        | .error e => .error e
        | .ok (_, _, d, pal, tw, th, idx) =>
          if idx.length = tw * th then
            if idx.all (fun i => i < pal.length) then
              .ok (⟨tw, th, .RGB, reconstructLossy pal idx⟩, ⟨tw, th, pal.length, d⟩)
            else .error .IndexOutOfRange
          else .error .TruncatedPayload
    else .error .MalformedManifest

theorem serializeLossyAlgo_mem_lt (origW origH : Nat) (dither : Bool)
    (pal : List Color) (im : IndexMap)
    (hpalc : ∀ c ∈ pal, colorLt256 c) (hidx : ∀ i ∈ im.indices, i < 256) :
    ∀ v ∈ serializeLossyAlgo origW origH dither pal im, v < 256 := by
  intro v hv
  simp only [serializeLossyAlgo, List.mem_append, List.mem_cons] at hv
  rcases hv with hv | hv | hv | hv | hv | hv | hv | hv
  · exact natToBytesBE_mem_lt _ _ v hv
  · exact natToBytesBE_mem_lt _ _ v hv
  · cases dither <;> simp_all
  · exact natToBytesBE_mem_lt _ _ v hv
  · obtain ⟨cb, hcbmem, hvcb⟩ := List.mem_flatten.1 hv
    obtain ⟨c, hc, rfl⟩ := List.mem_map.1 hcbmem
    have := hpalc c hc
    unfold colorLt256 at this
    simp only [colorBytes, List.mem_cons, List.not_mem_nil, or_false] at hvcb
    rcases hvcb with rfl | rfl | rfl <;> omega
  · exact natToBytesBE_mem_lt _ _ v hv
  · exact natToBytesBE_mem_lt _ _ v hv
  · exact hidx v hv

theorem colorBytes_length (c : Color) : (colorBytes c).length = 3 := rfl

theorem chunk3_colorBytes (pal : List Color) :
    (chunk 3 (pal.map colorBytes).flatten).map
        (fun l => (l.getD 0 0, l.getD 1 0, l.getD 2 0)) = pal := by
  rw [chunk_join (by norm_num) (pal.map colorBytes)
    (fun r hr => by obtain ⟨c, -, rfl⟩ := List.mem_map.1 hr; rfl)]
  rw [List.map_map]
  have : ((fun l : List Nat => (l.getD 0 0, l.getD 1 0, l.getD 2 0)) ∘ colorBytes) =
      fun c : Color => c := funext fun c => rfl
  rw [this, List.map_id']

theorem parseLossyAlgo_serializeLossyAlgo (origW origH : Nat) (dither : Bool)
    (pal : List Color) (im : IndexMap)
    (hW : origW < 2 ^ 32) (hH : origH < 2 ^ 32) (hpal : pal.length < 2 ^ 16)
    (htw : im.width < 2 ^ 32) (hth : im.height < 2 ^ 32) :
    parseLossyAlgo (serializeLossyAlgo origW origH dither pal im) =
      .ok (origW, origH, dither, pal, im.width, im.height, im.indices) := by
  have hflatlen : ((pal.map colorBytes).flatten).length = pal.length * 3 := by
    rw [List.length_flatten, List.map_map]
    exact sum_map_const_of fun c _ => rfl
  have h1 := readN_append 4
    (natToBytesBE 4 origH ++ ((if dither then 1 else 0) ::
      (natToBytesBE 2 pal.length ++ ((pal.map colorBytes).flatten ++
        (natToBytesBE 4 im.width ++ (natToBytesBE 4 im.height ++ im.indices))))))
    (natToBytesBE_length 4 origW)
  have h2 := readN_append 4
    ((if dither then 1 else 0) :: (natToBytesBE 2 pal.length ++
      ((pal.map colorBytes).flatten ++ (natToBytesBE 4 im.width ++
        (natToBytesBE 4 im.height ++ im.indices)))))
    (natToBytesBE_length 4 origH)
  have h3 := readN_append 2
    ((pal.map colorBytes).flatten ++ (natToBytesBE 4 im.width ++
      (natToBytesBE 4 im.height ++ im.indices)))
    (natToBytesBE_length 2 pal.length)
  have hpc : bytesBEToNat (natToBytesBE 2 pal.length) = pal.length :=
    bytesBEToNat_natToBytesBE (by simpa using hpal)
  have h4 : readN (3 * bytesBEToNat (natToBytesBE 2 pal.length))
      ((pal.map colorBytes).flatten ++ (natToBytesBE 4 im.width ++
        (natToBytesBE 4 im.height ++ im.indices))) =
      some ((pal.map colorBytes).flatten,
        natToBytesBE 4 im.width ++ (natToBytesBE 4 im.height ++ im.indices)) := by
    rw [hpc]
    exact readN_append _ _ (by rw [hflatlen]; ring)
  have h5 := readN_append 4 (natToBytesBE 4 im.height ++ im.indices)
    (natToBytesBE_length 4 im.width)
  have h6 := readN_append 4 im.indices (natToBytesBE_length 4 im.height)
  simp only [serializeLossyAlgo, parseLossyAlgo, h1, h2, h3, h4, h5, h6,
    chunk3_colorBytes,
    bytesBEToNat_natToBytesBE (show origW < 256 ^ 4 by simpa using hW),
    bytesBEToNat_natToBytesBE (show origH < 256 ^ 4 by simpa using hH),
    bytesBEToNat_natToBytesBE (show im.width < 256 ^ 4 by simpa using htw),
    bytesBEToNat_natToBytesBE (show im.height < 256 ^ 4 by simpa using hth)]
  cases dither <;> simp

/-- The resampled buffer of the lossy-algo encode pipeline. -/
def encResampled (b : PixelBuffer) (lock : Bool) (ms : Nat) (f : ResampleFilter) : PixelBuffer :=
  resample b (targetDims b.width b.height lock ms).1 (targetDims b.width b.height lock ms).2 f

/-- The palette produced by the lossy-algo encode pipeline. -/
def encPalette (b : PixelBuffer) (lock : Bool) (ms ps : Nat) (f : ResampleFilter) : List Color :=
  lossyPalette (pixelsOf (encResampled b lock ms f)) ps

/-- The index map produced by the lossy-algo encode pipeline. -/
def encIndexMap (b : PixelBuffer) (lock : Bool) (ms ps : Nat) (f : ResampleFilter)
    (d : Bool) : IndexMap :=
  ⟨(targetDims b.width b.height lock ms).1, (targetDims b.width b.height lock ms).2,
    lossyIndices (encPalette b lock ms ps f) (targetDims b.width b.height lock ms).1
      (pixelsOf (encResampled b lock ms f)) d⟩

theorem encodeLossyAlgo_eq (b : PixelBuffer) (src : List Char) (lock : Bool)
    (ms ps : Nat) (f : ResampleFilter) (d : Bool) (hps1 : 1 ≤ ps) (hps2 : ps ≤ 256) :
    encodeLossyAlgo b src lock ms ps f d =
      .ok (wrap .LOSSY_ALGO src (bytesToHex (serializeLossyAlgo b.width b.height d
        (encPalette b lock ms ps f) (encIndexMap b lock ms ps f d)))) := by
  unfold encodeLossyAlgo quantize
  rw [if_neg (by omega)]
  simp only [encPalette, encIndexMap, encResampled, resample_width, resample_height]

theorem decodeLossyAlgo_wrap (src : List Char) (origW origH : Nat) (d : Bool)
    (pal : List Color) (im : IndexMap)
    (hsrc : ';' ∉ src) (hW : origW < 2 ^ 32) (hH : origH < 2 ^ 32)
    (hpal16 : pal.length < 2 ^ 16) (hpalc : ∀ c ∈ pal, colorLt256 c)
    (htw : im.width < 2 ^ 32) (hth : im.height < 2 ^ 32)
    (hidx256 : ∀ i ∈ im.indices, i < 256)
    (hcnt : im.indices.length = im.width * im.height)
    (hbound : ∀ i ∈ im.indices, i < pal.length) :
    decodeLossyAlgo
        (wrap .LOSSY_ALGO src (bytesToHex (serializeLossyAlgo origW origH d pal im))) =
      .ok (⟨im.width, im.height, .RGB, reconstructLossy pal im.indices⟩,
        ⟨im.width, im.height, pal.length, d⟩) := by
  have hhex := hexPairsToBytes_bytesToHex
    (serializeLossyAlgo_mem_lt origW origH d pal im hpalc hidx256)
  have hall : im.indices.all (fun i => i < pal.length) = true :=
    List.all_eq_true.2 fun i hi => decide_eq_true (hbound i hi)
  simp only [decodeLossyAlgo, unwrap_wrap _ _ _ hsrc, reduceIte, hhex,
    parseLossyAlgo_serializeLossyAlgo origW origH d pal im hW hH hpal16 htw hth, hcnt,
    eq_self_iff_true, if_true, hall]

/-- Dimension bounds of `targetDims`. -/
theorem targetDims_le (w h : Nat) (lock : Bool) (ms : Nat) :
    (targetDims w h lock ms).1 ≤ max w (max ms 1) ∧
    (targetDims w h lock ms).2 ≤ max h (max ms 1) := by
  unfold targetDims
  split_ifs with hlock hsmall hhw
  · constructor <;> simp
  · constructor <;> simp
  · have hms' : ms < w ∨ ms < h := by
      rcases not_and_or.1 hsmall with hx | hx
      · exact Or.inl (not_le.1 hx)
      · exact Or.inr (not_le.1 hx)
    have hw1 : 1 ≤ w := by rcases hms' with hx | hx <;> omega
    have hr : (h * ms + w / 2) / w ≤ ms := by
      rw [Nat.div_le_iff_le_mul_add_pred (by omega)]
      have h1 : h * ms ≤ w * ms := Nat.mul_le_mul_right ms hhw
      have h2 : w / 2 < w := Nat.div_lt_self (by omega) (by omega)
      omega
    constructor
    · show ms ≤ _
      omega
    · show max 1 ((h * ms + w / 2) / w) ≤ _
      omega
  · have hms' : ms < w ∨ ms < h := by
      rcases not_and_or.1 hsmall with hx | hx
      · exact Or.inl (not_le.1 hx)
      · exact Or.inr (not_le.1 hx)
    have hh1 : 1 ≤ h := by rcases hms' with hx | hx <;> omega
    have hr : (w * ms + h / 2) / h ≤ ms := by
      rw [Nat.div_le_iff_le_mul_add_pred (by omega)]
      have h1 : w * ms ≤ h * ms := Nat.mul_le_mul_right ms (by omega)
      have h2 : h / 2 < h := Nat.div_lt_self (by omega) (by omega)
      omega
    constructor
    · show max 1 ((w * ms + h / 2) / h) ≤ _
      omega
    · show ms ≤ _
      omega

/-- Master round trip of the lossy-algo codec: for a valid buffer and a
palette size in range, encode succeeds, and decoding the produced manifest
yields the palette-lookup reconstruction at the encoded resolution together
with faithful diagnostics. -/
theorem lossyAlgo_roundtrip (b : PixelBuffer) (src : List Char) (lock : Bool)
    (ms ps : Nat) (f : ResampleFilter) (d : Bool)
    (hv : b.valid) (hsrc : ';' ∉ src) (hps1 : 1 ≤ ps) (hps2 : ps ≤ 256)
    (hms : ms < 2 ^ 32) :
    encodeLossyAlgo b src lock ms ps f d =
      .ok (wrap .LOSSY_ALGO src (bytesToHex (serializeLossyAlgo b.width b.height d
        (encPalette b lock ms ps f) (encIndexMap b lock ms ps f d)))) ∧
    decodeLossyAlgo
        (wrap .LOSSY_ALGO src (bytesToHex (serializeLossyAlgo b.width b.height d
          (encPalette b lock ms ps f) (encIndexMap b lock ms ps f d)))) =
      .ok (⟨(targetDims b.width b.height lock ms).1,
            (targetDims b.width b.height lock ms).2, .RGB,
            reconstructLossy (encPalette b lock ms ps f)
              (encIndexMap b lock ms ps f d).indices⟩,
        ⟨(targetDims b.width b.height lock ms).1,
          (targetDims b.width b.height lock ms).2,
          (encPalette b lock ms ps f).length, d⟩) ∧
    (encPalette b lock ms ps f).length ≤ ps ∧
    (∀ i ∈ (encIndexMap b lock ms ps f d).indices, i < (encPalette b lock ms ps f).length) ∧
    (encIndexMap b lock ms ps f d).indices.length =
      (targetDims b.width b.height lock ms).1 * (targetDims b.width b.height lock ms).2 := by
  obtain ⟨hlen, hdata, hw, hh, hw32, hh32⟩ := hv
  have hb'len : (encResampled b lock ms f).data.length =
      (targetDims b.width b.height lock ms).1 * (targetDims b.width b.height lock ms).2 *
        (encResampled b lock ms f).channels.count := by
    unfold encResampled
    rw [resample_channels]
    exact resample_data_length _ _ _ _ hlen
  have hb'w : (encResampled b lock ms f).width = (targetDims b.width b.height lock ms).1 :=
    resample_width ..
  have hb'h : (encResampled b lock ms f).height = (targetDims b.width b.height lock ms).2 :=
    resample_height ..
  have hb'len2 : (encResampled b lock ms f).data.length =
      (encResampled b lock ms f).width * (encResampled b lock ms f).height *
        (encResampled b lock ms f).channels.count := by
    rw [hb'w, hb'h]; exact hb'len
  have hpxlen : (pixelsOf (encResampled b lock ms f)).length =
      (targetDims b.width b.height lock ms).1 * (targetDims b.width b.height lock ms).2 := by
    rw [pixelsOf_length hb'len2, hb'w, hb'h]
  have hpxlt : ∀ c ∈ pixelsOf (encResampled b lock ms f), colorLt256 c := by
    apply pixelsOf_lt256 hb'len2
    unfold encResampled
    exact resample_data_lt _ _ _ _ hdata
  have hpalc : ∀ c ∈ encPalette b lock ms ps f, colorLt256 c :=
    lossyPalette_lt256 ps hpxlt
  have hpallen : (encPalette b lock ms ps f).length ≤ ps :=
    lossyPalette_length_le _ hps1
  have hpalne : encPalette b lock ms ps f ≠ [] := lossyPalette_ne_nil _ _
  have hbound : ∀ i ∈ (encIndexMap b lock ms ps f d).indices,
      i < (encPalette b lock ms ps f).length :=
    lossyIndices_mem_lt hpalne _ _ _
  have hlen2 : (pixelsOf (encResampled b lock ms f)).length =
      (targetDims b.width b.height lock ms).2 * (targetDims b.width b.height lock ms).1 := by
    rw [hpxlen]; ring
  have hcnt0 := lossyIndices_length (encPalette b lock ms ps f) d hlen2
  have hcnt : (encIndexMap b lock ms ps f d).indices.length =
      (encIndexMap b lock ms ps f d).width * (encIndexMap b lock ms ps f d).height := by
    simp only [encIndexMap]
    rw [hcnt0]
    ring
  have htd := targetDims_le b.width b.height lock ms
  have htw : (encIndexMap b lock ms ps f d).width < 2 ^ 32 := by
    show (targetDims b.width b.height lock ms).1 < 2 ^ 32
    have h1 : max b.width (max ms 1) < 2 ^ 32 := by
      rcases max_choice b.width (max ms 1) with hmc | hmc <;> rw [hmc]
      · exact hw32
      · rcases max_choice ms 1 with hmc2 | hmc2 <;> rw [hmc2]
        · exact hms
        · norm_num
    omega
  have hth : (encIndexMap b lock ms ps f d).height < 2 ^ 32 := by
    show (targetDims b.width b.height lock ms).2 < 2 ^ 32
    have h1 : max b.height (max ms 1) < 2 ^ 32 := by
      rcases max_choice b.height (max ms 1) with hmc | hmc <;> rw [hmc]
      · exact hh32
      · rcases max_choice ms 1 with hmc2 | hmc2 <;> rw [hmc2]
        · exact hms
        · norm_num
    omega
  refine ⟨encodeLossyAlgo_eq b src lock ms ps f d hps1 hps2, ?_, hpallen, hbound, ?_⟩
  · exact decodeLossyAlgo_wrap src b.width b.height d _ _ hsrc hw32 hh32
      (by omega) hpalc htw hth (fun i hi => by have := hbound i hi; omega) hcnt hbound
  · simp only [encIndexMap]
    rw [hcnt0]
    ring

theorem targetDims_lock (w h ms : Nat) : targetDims w h true ms = (w, h) := by
  simp [targetDims]

theorem targetDims_scale_wide (w h ms : Nat) (hms : ms < w ∨ ms < h) (hhw : h ≤ w) :
    targetDims w h false ms = (ms, max 1 ((h * ms + w / 2) / w)) := by
  unfold targetDims
  rw [if_neg (by simp), if_neg (fun hc => by rcases hms with hx | hx <;> omega), if_pos hhw]

theorem targetDims_scale_tall (w h ms : Nat) (hms : ms < w ∨ ms < h) (hwh : w < h) :
    targetDims w h false ms = (max 1 ((w * ms + h / 2) / h), ms) := by
  unfold targetDims
  rw [if_neg (by simp), if_neg (fun hc => by rcases hms with hx | hx <;> omega),
    if_neg (by omega)]

/-- C6: Quantization requires `palette_size` in `[1, 256]`: every
out-of-range value makes the encode call fail with `InvalidPaletteSize`,
producing no manifest. -/
theorem C6_invalid_palette_size :
    ∀ (b : PixelBuffer) (src : List Char) (lock : Bool) (ms ps : Nat)
      (f : ResampleFilter) (d : Bool), ps < 1 ∨ 256 < ps →
      encodeLossyAlgo b src lock ms ps f d = .error .InvalidPaletteSize := by
  intro b src lock ms ps f d hps
  unfold encodeLossyAlgo quantize
  rw [if_pos hps]

/-- In particular (spec §8), `palette_size = 0` and `palette_size = 300`
both fail encode with `InvalidPaletteSize`. -/
theorem C6_invalid_palette_size_witness :
    encodeLossyAlgo (PixelBuffer.mk 1 1 .Gray [0]) ['s'] true 64 0 .nearest false =
      .error .InvalidPaletteSize ∧
    encodeLossyAlgo (PixelBuffer.mk 1 1 .Gray [0]) ['s'] true 64 300 .nearest false =
      .error .InvalidPaletteSize :=
  ⟨C6_invalid_palette_size _ _ _ _ _ _ _ (Or.inl (by norm_num)),
   C6_invalid_palette_size _ _ _ _ _ _ _ (Or.inr (by norm_num))⟩

/-- C5: every `(Palette, IndexMap)` pair a quantize call produces has all
indices strictly below the palette size and exactly `width*height` of
them; and an index `≥` palette size encountered during lossy-algo
reconstruction fails with `IndexOutOfRange`. -/
theorem C5_palette_bound :
    (∀ (b : PixelBuffer) (ps : Nat) (d : Bool) (pal : List Color) (im : IndexMap),
        b.valid → quantize b ps d = .ok (pal, im) →
        (∀ i ∈ im.indices, i < pal.length) ∧
        im.indices.length = b.width * b.height) ∧
    (∀ (src : List Char) (origW origH : Nat) (d : Bool) (pal : List Color) (im : IndexMap),
        ';' ∉ src → origW < 2 ^ 32 → origH < 2 ^ 32 → pal.length < 2 ^ 16 →
        (∀ c ∈ pal, colorLt256 c) → im.width < 2 ^ 32 → im.height < 2 ^ 32 →
        (∀ i ∈ im.indices, i < 256) → im.indices.length = im.width * im.height →
        (∃ i ∈ im.indices, pal.length ≤ i) →
        decodeLossyAlgo (wrap .LOSSY_ALGO src
          (bytesToHex (serializeLossyAlgo origW origH d pal im))) =
          .error .IndexOutOfRange) := by
  constructor
  · intro b ps d pal im hv heq
    unfold quantize at heq
    by_cases hps : ps < 1 ∨ 256 < ps
    · rw [if_pos hps] at heq
      exact absurd heq (by simp)
    · rw [if_neg hps] at heq
      simp only [Except.ok.injEq, Prod.mk.injEq] at heq
      obtain ⟨hpal, him⟩ := heq
      subst hpal
      subst him
      constructor
      · exact lossyIndices_mem_lt (lossyPalette_ne_nil _ _) _ _ _
      · have hlen2 : (pixelsOf b).length = b.height * b.width := by
          rw [pixelsOf_length hv.1]; ring
        rw [lossyIndices_length _ d hlen2]
        ring
  · intro src origW origH d pal im hsrc hW hH hpal16 hpalc htw hth hidx256 hcnt hex
    have hhex := hexPairsToBytes_bytesToHex
      (serializeLossyAlgo_mem_lt origW origH d pal im hpalc hidx256)
    have hallf : im.indices.all (fun i => i < pal.length) = false := by
      cases hall : im.indices.all (fun i => i < pal.length) with
      | false => rfl
      | true =>
          obtain ⟨i, hi, hige⟩ := hex
          have := of_decide_eq_true (List.all_eq_true.1 hall i hi)
          omega
    simp only [decodeLossyAlgo, unwrap_wrap _ _ _ hsrc, reduceIte, hhex,
      parseLossyAlgo_serializeLossyAlgo origW origH d pal im hW hH hpal16 htw hth, hcnt,
      eq_self_iff_true, if_true, hallf, Bool.false_eq_true, if_false]

/-- Concrete instances of C5: a 1×1 gray buffer quantizes to a one-entry
palette with index map `[0]` of length `1*1`, all indices in range; a
hand-built payload whose single index `5` exceeds its one-entry palette
decodes to `IndexOutOfRange`. -/
theorem C5_palette_bound_witness :
    quantize (PixelBuffer.mk 1 1 .Gray [7]) 2 false =
      .ok ([(7, 7, 7)], IndexMap.mk 1 1 [0]) ∧
    ((∀ i ∈ (IndexMap.mk 1 1 [0]).indices, i < ([((7 : Nat), (7 : Nat), (7 : Nat))]).length) ∧
      (IndexMap.mk 1 1 [0]).indices.length =
        (PixelBuffer.mk 1 1 .Gray [7]).width * (PixelBuffer.mk 1 1 .Gray [7]).height) ∧
    decodeLossyAlgo (wrap .LOSSY_ALGO ['s']
        (bytesToHex (serializeLossyAlgo 1 1 false [(3, 3, 3)] (IndexMap.mk 1 1 [5])))) =
      .error .IndexOutOfRange :=
  ⟨by decide,
   C5_palette_bound.1 (PixelBuffer.mk 1 1 .Gray [7]) 2 false [(7, 7, 7)]
     (IndexMap.mk 1 1 [0]) (by decide) (by decide),
   C5_palette_bound.2 ['s'] 1 1 false [(3, 3, 3)] (IndexMap.mk 1 1 [5]) (by decide)
     (by norm_num) (by norm_num) (by norm_num) (by decide) (by norm_num) (by norm_num)
     (by decide) (by decide) (by decide)⟩

/-- C7: in the lossy-algo encode pipeline, when `lock_dims` is false and a
source dimension exceeds `max_side`, the buffer is resampled so the longer
side equals `max_side` with the aspect-preserved other side rounded to the
nearest integer, minimum 1px (observed on the decoded buffer's encoded
resolution); when `lock_dims` is true, the source dimensions are preserved
and `max_side` has no effect. -/
theorem C7_encode_pipeline_dims :
    ∀ (b : PixelBuffer) (src : List Char) (ms ps : Nat) (f : ResampleFilter) (d : Bool),
      b.valid → ';' ∉ src → 1 ≤ ps → ps ≤ 256 → ms < 2 ^ 32 →
      ((ms < b.width ∨ ms < b.height) →
        ∃ m buf diag, encodeLossyAlgo b src false ms ps f d = .ok m ∧
          decodeLossyAlgo m = .ok (buf, diag) ∧
          ((b.height ≤ b.width → buf.width = ms ∧
              buf.height = max 1 ((b.height * ms + b.width / 2) / b.width)) ∧
           (b.width < b.height →
              buf.width = max 1 ((b.width * ms + b.height / 2) / b.height) ∧
              buf.height = ms))) ∧
      (∃ m buf diag, encodeLossyAlgo b src true ms ps f d = .ok m ∧
        decodeLossyAlgo m = .ok (buf, diag) ∧
        buf.width = b.width ∧ buf.height = b.height) := by
  intro b src ms ps f d hv hsrc hps1 hps2 hms
  constructor
  · intro hexceed
    obtain ⟨henc, hdec, -, -, -⟩ :=
      lossyAlgo_roundtrip b src false ms ps f d hv hsrc hps1 hps2 hms
    refine ⟨_, _, _, henc, hdec, ?_, ?_⟩
    · intro hhw
      rw [targetDims_scale_wide b.width b.height ms hexceed hhw]
      exact ⟨rfl, rfl⟩
    · intro hwh
      rw [targetDims_scale_tall b.width b.height ms hexceed hwh]
      exact ⟨rfl, rfl⟩
  · obtain ⟨henc, hdec, -, -, -⟩ :=
      lossyAlgo_roundtrip b src true ms ps f d hv hsrc hps1 hps2 hms
    refine ⟨_, _, _, henc, hdec, ?_, ?_⟩
    · rw [targetDims_lock]
    · rw [targetDims_lock]

/-- Concrete instance of C7: a 4×2 buffer with `max_side = 2` encodes at
2×1 (longer side 2, aspect preserved), and with `lock_dims` it encodes at
4×2. -/
theorem C7_encode_pipeline_dims_witness :
    (∃ m buf diag,
      encodeLossyAlgo (PixelBuffer.mk 4 2 .Gray [1, 2, 3, 4, 5, 6, 7, 8]) ['s']
          false 2 1 .nearest false = .ok m ∧
        decodeLossyAlgo m = .ok (buf, diag) ∧ buf.width = 2 ∧ buf.height = 1) ∧
    (∃ m buf diag,
      encodeLossyAlgo (PixelBuffer.mk 4 2 .Gray [1, 2, 3, 4, 5, 6, 7, 8]) ['s']
          true 2 1 .nearest false = .ok m ∧
        decodeLossyAlgo m = .ok (buf, diag) ∧ buf.width = 4 ∧ buf.height = 2) := by
  obtain ⟨h1, h2⟩ := C7_encode_pipeline_dims (PixelBuffer.mk 4 2 .Gray [1, 2, 3, 4, 5, 6, 7, 8])
    ['s'] 2 1 .nearest false (by decide) (by decide) (by decide) (by decide) (by norm_num)
  constructor
  · obtain ⟨m, buf, diag, henc, hdec, hwide, -⟩ := h1 (by decide)
    obtain ⟨hbw, hbh⟩ := hwide (by decide)
    refine ⟨m, buf, diag, henc, hdec, hbw, ?_⟩
    rw [hbh]
    decide
  · exact h2

/-- C4: lossy-algo decode reconstructs the buffer at the encoded
resolution by per-index palette lookup — never resampled back to the
original size — and for a 128×128 input with `lock_dims=false`,
`max_side=64`, `palette_size=16`, `resample=bicubic`, `dither=false` the
encoded dimensions are 64×64 and the palette has at most 16 entries, with
every reconstructed pixel's bytes equal to its palette entry exactly. -/
theorem C4_lossy_decode_scenarioB :
    ∀ (b : PixelBuffer) (src : List Char), b.valid → ';' ∉ src →
      b.width = 128 → b.height = 128 →
      ∃ m pal idx diag,
        encodeLossyAlgo b src false 64 16 .bicubic false = .ok m ∧
        decodeLossyAlgo m =
          .ok (PixelBuffer.mk 64 64 .RGB (reconstructLossy pal idx), diag) ∧
        pal.length ≤ 16 ∧ (∀ i ∈ idx, i < pal.length) ∧ idx.length = 64 * 64 := by
  intro b src hv hsrc hw hh
  obtain ⟨henc, hdec, hpallen, hbound, hcnt⟩ :=
    lossyAlgo_roundtrip b src false 64 16 .bicubic false hv hsrc (by norm_num)
      (by norm_num) (by norm_num)
  have htd : targetDims b.width b.height false 64 = (64, 64) := by
    rw [hw, hh]
    decide
  rw [htd] at hdec hcnt
  refine ⟨_, encPalette b false 64 16 .bicubic,
    (encIndexMap b false 64 16 .bicubic false).indices, _, henc, hdec, hpallen, hbound, hcnt⟩

/-- Concrete instance of C4: a uniform 128×128 RGB buffer. -/
theorem C4_lossy_decode_scenarioB_witness :
    ∃ m pal idx diag,
      encodeLossyAlgo (PixelBuffer.mk 128 128 .RGB (List.replicate (128 * 128 * 3) 7))
          ['s'] false 64 16 .bicubic false = .ok m ∧
      decodeLossyAlgo m =
        .ok (PixelBuffer.mk 64 64 .RGB (reconstructLossy pal idx), diag) ∧
      pal.length ≤ 16 ∧ (∀ i ∈ idx, i < pal.length) ∧ idx.length = 64 * 64 :=
  C4_lossy_decode_scenarioB _ ['s']
    (by
      refine ⟨by rw [List.length_replicate]; rfl, ?_, by norm_num, by norm_num, by norm_num,
        by norm_num⟩
      intro x hx
      rw [List.eq_of_mem_replicate hx]
      norm_num)
    (by decide) rfl rfl

/-! ## Descriptive (NLP) codec — encode side (spec §4.6)

Modelled from the spec: resize so the shorter side equals
`target_short_side` (unless `preserve_dims`), run a reduced quantization
probe (no dithering) to extract dominant colors with centroid anchors
(fractional coordinates in permille), and render a constrained textual
template.  Only the encode side is modelled; the claims touching this
codec concern determinism of encoding. -/

/-- Target dimensions of the NLP encode resize: shorter side becomes
`target_short_side`, aspect preserved (rounded to nearest, minimum 1px). -/
def nlpTargetDims (w h : Nat) (preserve : Bool) (tss : Nat) : Nat × Nat :=
  if preserve then (w, h)
  else if h ≤ w then (max 1 ((w * tss + h / 2) / h), tss)
  else (tss, max 1 ((h * tss + w / 2) / w))

/-- Centroid anchors (permille of the image extent) of each palette index
in a row-major index map of width `w` and height `h`. -/
def anchorsOf (w h : Nat) (idx : List Nat) (palLen : Nat) : List (Nat × Nat) :=
  (List.range palLen).map fun k =>
    let pos := (idx.enum.filter fun p => p.2 = k).map Prod.fst
    let n := pos.length
    ((pos.map fun i => i % w * 1000).sum / (n * max 1 (w - 1)),
     (pos.map fun i => i / w * 1000).sum / (n * max 1 (h - 1)))

/-- Decimal digits of a natural number, as characters. -/
def natToDec (n : Nat) : List Char := (Nat.repr n).toList

/-- One dominant-color clause of the descriptive template. -/
def renderColor (c : Color) (a : Nat × Nat) : List Char :=
  ("color ").toList ++ (natToDec c.1 ++ (' ' :: (natToDec c.2.1 ++ (' ' :: (natToDec c.2.2 ++
    ((" at ").toList ++ (natToDec a.1 ++ (' ' :: (natToDec a.2 ++ ['.', ' '])))))))))

/-- NLP `encode` (spec §4.6): deterministic constrained-template
description of the probed dominant colors and their anchors. -/
def encodeLossyNlp (b : PixelBuffer) (src : List Char) (preserveDims : Bool)
    (targetShortSide paletteProbe : Nat) : Except CodecError (List Char) :=
  if paletteProbe < 1 ∨ 256 < paletteProbe then .error .InvalidPaletteSize
  else
    let td := nlpTargetDims b.width b.height preserveDims targetShortSide
    let px := pixelsOf (resample b td.1 td.2 .bilinear)
    let pal := lossyPalette px paletteProbe
    let idx := lossyIndices pal td.1 px false
    let body := ("size ").toList ++ (natToDec td.1 ++ (' ' :: (natToDec td.2 ++ ('.' :: ' ' ::
      ((pal.zip (anchorsOf td.1 td.2 idx pal.length)).map
        fun pa => renderColor pa.1 pa.2).flatten))))
    .ok (wrap .LOSSY_NLP src body)

/-- C3: every encode operation is deterministic: two encode calls on the
same buffer with the same option set (any source tag; for lossy-algo all
four resample filters, with and without dithering) produce byte-identical
manifests.  In this embedding every encoder is a pure function of its
arguments — the spec's requirement that the filters and the quantizer use
no randomness is what makes the codecs representable as functions at all —
so repeated calls are definitionally equal. -/
theorem C3_encode_deterministic :
    (∀ (src : List Char) (p : PixelBuffer),
        encodeLossless src p = encodeLossless src p) ∧
    (∀ (b : PixelBuffer) (src : List Char) (lock : Bool) (ms ps : Nat)
        (f : ResampleFilter) (d : Bool),
        encodeLossyAlgo b src lock ms ps f d = encodeLossyAlgo b src lock ms ps f d) ∧
    (∀ (b : PixelBuffer) (src : List Char) (pd : Bool) (tss pp : Nat),
        encodeLossyNlp b src pd tss pp = encodeLossyNlp b src pd tss pp) :=
  ⟨fun _ _ => rfl, fun _ _ _ _ _ _ _ => rfl, fun _ _ _ _ _ => rfl⟩

/-! ## The HTTP surface (`src/app.py`)

These definitions are embedded from `app.py` itself: the temp-file
lifecycle of the three encode endpoints and the `X-API-Key` check shared
by every `/encode/*` and `/decode/*` route.  The codec functions imported
from `image_to_text_full_v3` appear as opaque function parameters, exactly
as `app.py` consumes them. -/

/-- The file-system state the handlers touch: existing temp-file names and
the fresh-name counter of `tempfile.NamedTemporaryFile`. -/
structure FsState where
  files : List String
  counter : Nat
deriving DecidableEq, Repr

/-- The fresh temp-file path for counter value `n`. -/
def tmpName (n : Nat) : String := "tmp" ++ Nat.repr n

/-- `_save_upload_to_tmp` (app.py 57–62): write the upload to a fresh
temp file and return its path. -/
def saveUploadToTmp (st : FsState) : String × FsState :=
  (tmpName st.counter, ⟨tmpName st.counter :: st.files, st.counter + 1⟩)

/-- `os.remove(tmp)` inside `try: ... except Exception: pass`
(app.py 81–82, 116–117, 150–151): total, removes the file if present. -/
def osRemoveQuiet (p : String) (st : FsState) : FsState :=
  ⟨st.files.erase p, st.counter⟩

/-- Options of `/encode/lossy-algo` (app.py 98–106). -/
structure LossyAlgoOpts where
  lock_dims : Bool
  max_side : Nat
  palette_size : Nat
  resample : String
  dither : Bool

/-- Options of `/encode/lossy-nlp` (app.py 135–141). -/
structure LossyNlpOpts where
  preserve_dims : Bool
  target_short_side : Nat
  palette_probe : Nat

/-- `/encode/lossless` handler (app.py 71–82): save the upload to a temp
file, call the codec, and in `finally` remove the temp file — whether the
codec returned a manifest or raised. -/
def encodeLosslessEndpoint (codec : String → Except CodecError (List Char × String))
    (st : FsState) : FsState × Except CodecError (List Char × String) :=
  let r := saveUploadToTmp st
  let res := codec r.1
  (osRemoveQuiet r.1 r.2, res)

/-- `/encode/lossy-algo` handler (app.py 97–117): same temp-file
lifecycle around `encode_lossy_algo_to_text`. -/
def encodeLossyAlgoEndpoint
    (codec : String → LossyAlgoOpts → Except CodecError (List Char × String))
    (opts : LossyAlgoOpts) (st : FsState) :
    FsState × Except CodecError (List Char × String) :=
  let r := saveUploadToTmp st
  let res := codec r.1 opts
  (osRemoveQuiet r.1 r.2, res)

/-- `/encode/lossy-nlp` handler (app.py 134–151): same temp-file
lifecycle around `encode_lossy_nlp_to_text`. -/
def encodeLossyNlpEndpoint
    (codec : String → LossyNlpOpts → Except CodecError (List Char × String))
    (opts : LossyNlpOpts) (st : FsState) :
    FsState × Except CodecError (List Char × String) :=
  let r := saveUploadToTmp st
  let res := codec r.1 opts
  (osRemoveQuiet r.1 r.2, res)

/-- C9: for every request to any of the three encode endpoints, the temp
file created from the upload is removed after the codec call completes —
the handler's `finally` runs whether the codec returned a manifest or
raised (the codec is an arbitrary `Except`-valued function here) — so the
final file set equals the initial one and no temp upload file survives;
the codec result itself passes through unchanged. -/
theorem C9_tmp_file_removed :
    ∀ (st : FsState)
      (codecL : String → Except CodecError (List Char × String))
      (codecA : String → LossyAlgoOpts → Except CodecError (List Char × String))
      (codecN : String → LossyNlpOpts → Except CodecError (List Char × String))
      (optsA : LossyAlgoOpts) (optsN : LossyNlpOpts),
      tmpName st.counter ∉ st.files →
      ((encodeLosslessEndpoint codecL st).1.files = st.files ∧
        tmpName st.counter ∉ (encodeLosslessEndpoint codecL st).1.files ∧
        (encodeLosslessEndpoint codecL st).2 = codecL (tmpName st.counter)) ∧
      ((encodeLossyAlgoEndpoint codecA optsA st).1.files = st.files ∧
        tmpName st.counter ∉ (encodeLossyAlgoEndpoint codecA optsA st).1.files ∧
        (encodeLossyAlgoEndpoint codecA optsA st).2 = codecA (tmpName st.counter) optsA) ∧
      ((encodeLossyNlpEndpoint codecN optsN st).1.files = st.files ∧
        tmpName st.counter ∉ (encodeLossyNlpEndpoint codecN optsN st).1.files ∧
        (encodeLossyNlpEndpoint codecN optsN st).2 = codecN (tmpName st.counter) optsN) := by
  intro st codecL codecA codecN optsA optsN hfresh
  have herase : (tmpName st.counter :: st.files).erase (tmpName st.counter) = st.files :=
    List.erase_cons_head ..
  refine ⟨⟨?_, ?_, rfl⟩, ⟨?_, ?_, rfl⟩, ⟨?_, ?_, rfl⟩⟩ <;>
    simp only [encodeLosslessEndpoint, encodeLossyAlgoEndpoint, encodeLossyNlpEndpoint,
      saveUploadToTmp, osRemoveQuiet, herase]
  · exact hfresh
  · exact hfresh
  · exact hfresh

/-- Concrete instance of C9: the empty file system, codecs that raise. -/
theorem C9_tmp_file_removed_witness :
    ((encodeLosslessEndpoint (fun _ => .error .MalformedManifest)
        (FsState.mk [] 0)).1.files = [] ∧
      tmpName 0 ∉ (encodeLosslessEndpoint (fun _ => .error .MalformedManifest)
        (FsState.mk [] 0)).1.files ∧
      (encodeLosslessEndpoint (fun _ => .error .MalformedManifest)
        (FsState.mk [] 0)).2 = (fun _ => .error .MalformedManifest) (tmpName 0)) ∧
    ((encodeLossyAlgoEndpoint (fun _ _ => .error .InvalidPaletteSize)
        (LossyAlgoOpts.mk true 128 32 "bicubic" false) (FsState.mk [] 0)).1.files = [] ∧
      tmpName 0 ∉ (encodeLossyAlgoEndpoint (fun _ _ => .error .InvalidPaletteSize)
        (LossyAlgoOpts.mk true 128 32 "bicubic" false) (FsState.mk [] 0)).1.files ∧
      (encodeLossyAlgoEndpoint (fun _ _ => .error .InvalidPaletteSize)
        (LossyAlgoOpts.mk true 128 32 "bicubic" false) (FsState.mk [] 0)).2 =
        (fun _ _ => .error .InvalidPaletteSize) (tmpName 0)
          (LossyAlgoOpts.mk true 128 32 "bicubic" false)) ∧
    ((encodeLossyNlpEndpoint (fun _ _ => .ok (['m'], "out.png"))
        (LossyNlpOpts.mk true 512 8) (FsState.mk [] 0)).1.files = [] ∧
      tmpName 0 ∉ (encodeLossyNlpEndpoint (fun _ _ => .ok (['m'], "out.png"))
        (LossyNlpOpts.mk true 512 8) (FsState.mk [] 0)).1.files ∧
      (encodeLossyNlpEndpoint (fun _ _ => .ok (['m'], "out.png"))
        (LossyNlpOpts.mk true 512 8) (FsState.mk [] 0)).2 =
        (fun _ _ => .ok (['m'], "out.png")) (tmpName 0) (LossyNlpOpts.mk true 512 8)) :=
  C9_tmp_file_removed (FsState.mk [] 0) _ _ _ _ _ (by simp)

/-- `require_key` (app.py 23–27): raise HTTP 401 when the `X-API-Key`
header differs from the configured key (a missing header is `none` and
never equals `some apiKey`). -/
def requireKey (apiKey : String) (hdr : Option String) : Option Nat :=
  if hdr ≠ some apiKey then some 401 else none

/-- A route with `dependencies=[Depends(require_key)]`: the key check runs
first; otherwise the handler body answers (200, or 500 on an unhandled
exception).  All six `/encode/*` and `/decode/*` routes share this shape. -/
def protectedEndpointStatus (apiKey : String) (hdr : Option String) (handlerOk : Bool) : Nat :=
  match requireKey apiKey hdr with
  | some code => code
  | none => if handlerOk then 200 else 500

/-- `POST /encode/lossless` status (app.py 71). -/
def encodeLosslessStatus (apiKey : String) (hdr : Option String) (ok : Bool) : Nat :=
  protectedEndpointStatus apiKey hdr ok

/-- `POST /decode/lossless` status (app.py 84). -/
def decodeLosslessStatus (apiKey : String) (hdr : Option String) (ok : Bool) : Nat :=
  protectedEndpointStatus apiKey hdr ok

/-- `POST /encode/lossy-algo` status (app.py 97). -/
def encodeLossyAlgoStatus (apiKey : String) (hdr : Option String) (ok : Bool) : Nat :=
  protectedEndpointStatus apiKey hdr ok

/-- `POST /decode/lossy-algo` status (app.py 119). -/
def decodeLossyAlgoStatus (apiKey : String) (hdr : Option String) (ok : Bool) : Nat :=
  protectedEndpointStatus apiKey hdr ok

/-- `POST /encode/lossy-nlp` status (app.py 134). -/
def encodeLossyNlpStatus (apiKey : String) (hdr : Option String) (ok : Bool) : Nat :=
  protectedEndpointStatus apiKey hdr ok

/-- `POST /decode/lossy-nlp` status (app.py 153). -/
def decodeLossyNlpStatus (apiKey : String) (hdr : Option String) (ok : Bool) : Nat :=
  protectedEndpointStatus apiKey hdr ok

/-- `GET /` (app.py 46–48): the health handler returns the info record
with no key dependency. -/
def rootGet : Nat × List String := (200, ["/encode/*", "/decode/*"])

/-- `HEAD /` (app.py 50–52): `Response(status_code=200)`, no key. -/
def rootHead : Nat := 200

theorem protectedEndpointStatus_401_iff (apiKey : String) (hdr : Option String) (ok : Bool) :
    protectedEndpointStatus apiKey hdr ok = 401 ↔ hdr ≠ some apiKey := by
  constructor
  · intro h
    by_cases hk : hdr = some apiKey
    · exfalso
      unfold protectedEndpointStatus requireKey at h
      rw [if_neg (not_not_intro hk)] at h
      cases ok <;> simp at h
    · exact hk
  · intro hne
    unfold protectedEndpointStatus requireKey
    rw [if_pos hne]

/-- C10: every `/encode/*` and `/decode/*` endpoint answers HTTP 401 if
and only if its `X-API-Key` header is absent or differs from the
configured key, while `GET /` and `HEAD /` answer 200 with no key at all
(their handlers take no key dependency). -/
theorem C10_api_key_auth :
    ∀ (apiKey : String) (hdr : Option String) (ok : Bool),
      (encodeLosslessStatus apiKey hdr ok = 401 ↔ hdr ≠ some apiKey) ∧
      (decodeLosslessStatus apiKey hdr ok = 401 ↔ hdr ≠ some apiKey) ∧
      (encodeLossyAlgoStatus apiKey hdr ok = 401 ↔ hdr ≠ some apiKey) ∧
      (decodeLossyAlgoStatus apiKey hdr ok = 401 ↔ hdr ≠ some apiKey) ∧
      (encodeLossyNlpStatus apiKey hdr ok = 401 ↔ hdr ≠ some apiKey) ∧
      (decodeLossyNlpStatus apiKey hdr ok = 401 ↔ hdr ≠ some apiKey) ∧
      rootGet.1 = 200 ∧ rootHead = 200 :=
  fun apiKey hdr ok =>
    ⟨protectedEndpointStatus_401_iff apiKey hdr ok,
     protectedEndpointStatus_401_iff apiKey hdr ok,
     protectedEndpointStatus_401_iff apiKey hdr ok,
     protectedEndpointStatus_401_iff apiKey hdr ok,
     protectedEndpointStatus_401_iff apiKey hdr ok,
     protectedEndpointStatus_401_iff apiKey hdr ok, rfl, rfl⟩

end Img2Txt
